import Mathlib

/-!
Verification development for the QBI (Qubic Binary Interface) extractor.

The TypeScript sources are shallowly embedded:
* JavaScript numbers that the code only ever uses as integers are modelled
  as `Int` (so "non-integer" inputs are outside the model, while negative
  inputs are representable);
* thrown exceptions (`RangeError`) are modelled with `Except String`;
* the mutually recursive, cache-memoised resolver of the header extractor
  is modelled with an explicit fuel parameter (`none` = the recursion did
  not complete within the given depth); all other functions are total;
* JavaScript strings are processed as `List Char` (the headers in question
  are ASCII); regular-expression scans are implemented as the equivalent
  deterministic character scanners.
-/

/-! ## Data model (src/qbi.ts)

`QbiTypeRef` is the closed tagged union of `src/qbi.ts`.  The `struct`
variant's field list is represented by the mutually inductive `QbiFields`
(a cons-list of `(name, typeRef)` pairs) so that all recursion over the
tree is structural.
-/

mutual

inductive QbiTypeRef where
  | nodata (expectedSize : Option Int)
  | u8 | u16 | u32 | u64
  | i8 | i16 | i32 | i64
  | bool
  | bytes (length : Int)
  | m256i
  | array (length : Int) (item : QbiTypeRef)
  | struct (fields : QbiFields)
deriving DecidableEq

inductive QbiFields where
  | nil
  | cons (name : String) (typeRef : QbiTypeRef) (rest : QbiFields)
deriving DecidableEq

end

inductive EntryKind where
  | function
  | procedure
deriving DecidableEq

structure QbiEntry where
  kind : EntryKind
  name : String
  inputType : Int
  input : QbiTypeRef
  output : QbiTypeRef
  inputSize : Option Int
  outputSize : Option Int
deriving DecidableEq

structure QbiContract where
  name : String
  contractIndex : Option Int
  contractPublicKeyHex : Option String
  contractId : Option String
deriving DecidableEq

structure QbiMeta where
  source : Option String
  sourceRepo : Option String
  sourceRevision : Option String
  generatedAt : Option String
  generator : Option String
  generatorVersion : Option String
  warnings : Option (List String)
deriving DecidableEq

structure QbiFile where
  qbiVersion : String
  contract : QbiContract
  entries : List QbiEntry
  meta : Option QbiMeta
deriving DecidableEq

deriving instance DecidableEq for Except

/-! ## Layout calculator (src/compiler/cpp-layout.ts) -/

structure CppLayout where
  size : Int
  align : Int
deriving DecidableEq

/-- `alignUp` from cpp-layout.ts.  `Math.ceil(value / alignment) * alignment`
is the integer ceiling of the division for `alignment > 1`;
`Int.ediv` on the negated numerator gives exactly that ceiling. -/
def alignUp (value alignment : Int) : Int :=
  if alignment ≤ 1 then value
  else (-((-value) / alignment)) * alignment

/-- `assertPositiveInt` from cpp-layout.ts.  In the `Int` model the
`Number.isFinite`/`Number.isInteger` parts of the guard are intrinsic, so
only the sign check remains. -/
def assertPositiveInt (value : Int) (label : String) : Except String Int :=
  if value < 0 then .error (label ++ " must be a non-negative integer")
  else .ok value

mutual

/-- `cppLayoutOf` from cpp-layout.ts.  The `RangeError` thrown by
`assertPositiveInt` is the `Except.error` case. -/
def cppLayoutOf : QbiTypeRef → Except String CppLayout
  | .nodata expectedSize => .ok ⟨max 1 (expectedSize.getD 1), 1⟩
  | .bool | .u8 | .i8 => .ok ⟨1, 1⟩
  | .u16 | .i16 => .ok ⟨2, 2⟩
  | .u32 | .i32 => .ok ⟨4, 4⟩
  | .u64 | .i64 => .ok ⟨8, 8⟩
  | .bytes length =>
    match assertPositiveInt length "bytes.length" with
    | .error e => .error e
    | .ok l => .ok ⟨l, 1⟩
  | .m256i => .ok ⟨32, 8⟩
  | .array length item =>
    match assertPositiveInt length "array.length" with
    | .error e => .error e
    | .ok len =>
      match cppLayoutOf item with
      | .error e => .error e
      | .ok itemL => .ok ⟨itemL.size * len, itemL.align⟩
  | .struct fields =>
    match structLayoutGo fields 0 1 with
    | .error e => .error e
    | .ok (offset, structAlign) =>
      let size := alignUp offset structAlign
      .ok ⟨if size = 0 then 1 else size, structAlign⟩

/-- The field loop of the `struct` case of `cppLayoutOf`, threading the
running `offset` and `structAlign` accumulators of the source. -/
def structLayoutGo : QbiFields → Int → Int → Except String (Int × Int)
  | .nil, offset, structAlign => .ok (offset, structAlign)
  | .cons _ t rest, offset, structAlign =>
    match cppLayoutOf t with
    | .error e => .error e
    | .ok fieldLayout =>
      structLayoutGo rest (alignUp offset fieldLayout.align + fieldLayout.size)
        (max structAlign fieldLayout.align)

end

mutual

/-- Whether a `TypeRef` tree contains a negative `bytes`/`array` length
(the condition under which `cppLayoutOf` hits `assertPositiveInt`). -/
def hasNegLen : QbiTypeRef → Bool
  | .bytes length => length < 0
  | .array length item => length < 0 || hasNegLen item
  | .struct fields => fieldsHasNegLen fields
  | _ => false

/-- `hasNegLen` over a field list. -/
def fieldsHasNegLen : QbiFields → Bool
  | .nil => false
  | .cons _ t rest => hasNegLen t || fieldsHasNegLen rest

end

/-- The per-field layouts of a field list, propagating the first error. -/
def fieldsLayouts : QbiFields → Except String (List CppLayout)
  | .nil => .ok []
  | .cons _ t rest =>
    match cppLayoutOf t with
    | .error e => .error e
    | .ok l =>
      match fieldsLayouts rest with
      | .error e => .error e
      | .ok ls => .ok (l :: ls)

/-- The struct-layout fold as the spec states it: over the list of field
layouts, round the offset up to the field's alignment, add its size, and
track the maximum alignment, starting from offset 0 and alignment 1. -/
def structFoldSpec (ls : List CppLayout) : Int × Int :=
  ls.foldl (fun acc l => (alignUp acc.1 l.align + l.size, max acc.2 l.align)) (0, 1)

def exceptIsOk : Except String α → Bool
  | .error _ => false
  | .ok _ => true

/-! ## Character / string scanning primitives

The extractor works on JavaScript strings; here they are processed as
`List Char`.  `jsIsSpace` covers the ASCII whitespace matched by the
regular-expression class used in the source. -/

def jsIsSpace (c : Char) : Bool :=
  c = ' ' || c = '\t' || c = '\n' || c = '\r' || c = '\x0b' || c = '\x0c'

def isDigitChar (c : Char) : Bool := '0' ≤ c && c ≤ '9'

def isAlphaChar (c : Char) : Bool :=
  ('A' ≤ c && c ≤ 'Z') || ('a' ≤ c && c ≤ 'z')

/-- The class `[A-Za-z_]` (identifier start). -/
def isIdentStartChar (c : Char) : Bool := isAlphaChar c || c = '_'

/-- The class `[A-Za-z0-9_]` (identifier continuation / `\w`). -/
def isWordChar (c : Char) : Bool := isAlphaChar c || isDigitChar c || c = '_'

/-- The class `[A-Za-z0-9_:<>]` of the `constexpr` type position. -/
def isTypeNameChar (c : Char) : Bool :=
  isWordChar c || c = ':' || c = '<' || c = '>'

def listStartsWith : List Char → List Char → Bool
  | [], _ => true
  | _ :: _, [] => false
  | p :: ps, c :: cs => p = c && listStartsWith ps cs

/-- Strip an exact literal from the front, `none` if it does not match. -/
def stripLit : List Char → List Char → Option (List Char)
  | [], s => some s
  | _ :: _, [] => none
  | p :: ps, c :: cs => if p = c then stripLit ps cs else none

/-- `String.prototype.indexOf` on character lists (first occurrence of
`needle`, as an index). -/
def indexOfSub (needle : List Char) : List Char → Option Nat
  | [] => if needle = [] then some 0 else none
  | c :: rest =>
    if listStartsWith needle (c :: rest) then some 0
    else (indexOfSub needle rest).map (· + 1)

/-- Whether `pattern` occurs in `source` (via `indexOfSub`). -/
def containsSub (source pattern : String) : Bool :=
  (indexOfSub pattern.data source.data).isSome

/-- `String.prototype.trim` (both ends). -/
def listTrim (s : List Char) : List Char :=
  ((s.dropWhile jsIsSpace).reverse.dropWhile jsIsSpace).reverse

/-- `String.prototype.split(sep)` for a one-character separator (keeps
empty pieces, as in JavaScript). -/
def splitOnChar (sep : Char) : List Char → List (List Char)
  | [] => [[]]
  | c :: rest =>
    let parts := splitOnChar sep rest
    if c = sep then [] :: parts
    else
      match parts with
      | [] => [[c]]
      | p :: ps => (c :: p) :: ps

/-- `Number(...)` on a digit run. -/
def natOfDigits (s : List Char) : Nat :=
  s.foldl (fun acc c => acc * 10 + (c.toNat - '0'.toNat)) 0

/-! ## Struct body locator (`extractStructBody`, header-extractor) -/

/-- The brace-matching loop of `extractStructBody`: starting at the first
`{` with depth 0, `{` increments and `}` decrements the depth; when the
depth returns to 0 the characters strictly between the outer braces are
returned (the accumulator includes the opening brace, dropped at the
end). -/
def structBodyScan : List Char → Int → List Char → Option (List Char)
  | [], _, _ => none
  | c :: rest, depth, acc =>
    if c = '{' then structBodyScan rest (depth + 1) (c :: acc)
    else if c = '}' then
      if depth - 1 = 0 then some (acc.reverse.drop 1)
      else structBodyScan rest (depth - 1) (c :: acc)
    else structBodyScan rest depth (c :: acc)

/-- `extractStructBody` from the header extractor: find the first
occurrence of the text `struct <structName>`, then the first `{` after it,
then brace-match. -/
def extractStructBody (source structName : String) : Option String :=
  let src := source.data
  match indexOfSub ("struct ".data ++ structName.data) src with
  | none => none
  | some idx =>
    let tail := src.drop idx
    match indexOfSub ['{'] tail with
    | none => none
    | some rel => (structBodyScan (tail.drop rel) 0 []).map String.mk

/-! ## Constant evaluator (`extractNumericConstants` and helpers,
header-extractor)

`Map<string, number>` is modelled as an insertion-ordered association
list: `alGet` is `Map.get`, `alSet` is `Map.set` (update in place, or
append).  The scanning loops take an explicit fuel argument; the callers
pass `input.length + 1`, which the loops can never exhaust since every
step consumes at least one character. -/

def alGet (m : List (String × α)) (key : String) : Option α :=
  match m.find? (fun p => p.1 = key) with
  | none => none
  | some p => some p.2

def alSet (m : List (String × α)) (key : String) (v : α) : List (String × α) :=
  if (m.find? (fun p => p.1 = key)).isSome then
    m.map (fun p => if p.1 = key then (key, v) else p)
  else m ++ [(key, v)]

/-- Word boundary (`\b`) on the right of a just-matched suffix token. -/
def boundaryAfter : List Char → Bool
  | [] => true
  | c :: _ => !isWordChar c

/-- One attempt of `\bULL\b|\bLL\b|\bUL\b|\bL\b|\bU\b` at the current
position (alternatives in the source's order); the left boundary is
checked by the caller. -/
def numSuffixAt (s : List Char) : Option Nat :=
  if listStartsWith "ULL".data s && boundaryAfter (s.drop 3) then some 3
  else if listStartsWith "LL".data s && boundaryAfter (s.drop 2) then some 2
  else if listStartsWith "UL".data s && boundaryAfter (s.drop 2) then some 2
  else if listStartsWith "L".data s && boundaryAfter (s.drop 1) then some 1
  else if listStartsWith "U".data s && boundaryAfter (s.drop 1) then some 1
  else none

/-- The `replace(/\bULL\b|.../g, "")` pass of `tokenizeNumericExpr`;
`prevIsWord` tracks whether the previous original character is a word
character (no match can start there, `\b`). -/
def stripNumSuffixGo : Nat → Bool → List Char → List Char → List Char
  | 0, _, s, acc => acc.reverse ++ s
  | _, _, [], acc => acc.reverse
  | fuel+1, prevIsWord, c :: rest, acc =>
    if prevIsWord then stripNumSuffixGo fuel (isWordChar c) rest (c :: acc)
    else
      match numSuffixAt (c :: rest) with
      | some k => stripNumSuffixGo fuel true ((c :: rest).drop k) acc
      | none => stripNumSuffixGo fuel (isWordChar c) rest (c :: acc)

/-- `replace(/\s+/g, " ")`. -/
def collapseSpacesGo : List Char → List Char
  | [] => []
  | [c] => [if jsIsSpace c then ' ' else c]
  | c :: c2 :: rest =>
    if jsIsSpace c && jsIsSpace c2 then collapseSpacesGo (c2 :: rest)
    else (if jsIsSpace c then ' ' else c) :: collapseSpacesGo (c2 :: rest)

/-- The rejection test `/[\/%]|div\s*\(|mod\s*\(/.test(s)`. -/
def hasBannedOp : List Char → Bool
  | [] => false
  | c :: rest =>
    c = '/' || c = '%' ||
    ((listStartsWith "div".data (c :: rest) || listStartsWith "mod".data (c :: rest)) &&
      ((c :: rest).drop 3 |>.dropWhile jsIsSpace |>.head?) = some '(') ||
    hasBannedOp rest

inductive NumericToken where
  | num (value : Int)
  | ident (value : String)
  | op (value : Char)
  | paren (value : Char)
deriving DecidableEq

/-- The character loop of `tokenizeNumericExpr`. -/
def tokenizeGo : Nat → List Char → List NumericToken → Option (List NumericToken)
  | 0, _, _ => none
  | _, [], acc => some acc.reverse
  | fuel+1, c :: rest, acc =>
    if c = ' ' then tokenizeGo fuel rest acc
    else if c = '(' || c = ')' then tokenizeGo fuel rest (.paren c :: acc)
    else if c = '+' || c = '-' || c = '*' then tokenizeGo fuel rest (.op c :: acc)
    else if isDigitChar c then
      tokenizeGo fuel (rest.dropWhile isDigitChar)
        (.num (natOfDigits (c :: rest.takeWhile isDigitChar)) :: acc)
    else if isIdentStartChar c then
      tokenizeGo fuel (rest.dropWhile isWordChar)
        (.ident (String.mk (c :: rest.takeWhile isWordChar)) :: acc)
    else none

/-- `tokenizeNumericExpr` from the header extractor. -/
def tokenizeNumericExpr (expr : String) : Option (List NumericToken) :=
  let s0 := stripNumSuffixGo (expr.data.length + 1) false expr.data []
  let s := listTrim (collapseSpacesGo s0)
  if hasBannedOp s then none
  else tokenizeGo (s.length + 1) s []

/-- A postfix-output item of the shunting-yard pass (`(number|string)[]`
in the source). -/
inductive OutItem where
  | num (n : Int)
  | op (c : Char)
deriving DecidableEq

/-- The precedence table `{ "+": 1, "-": 1, "*": 2 }`. -/
def precOf (c : Char) : Nat := if c = '*' then 2 else 1

/-- The inner `while` of the operator case: pop operators of greater or
equal precedence to the output, stopping at `(`. -/
def popGE (precT : Nat) : List Char → List OutItem → List Char × List OutItem
  | [], out => ([], out)
  | top :: restOps, out =>
    if top = '(' then (top :: restOps, out)
    else if precT ≤ precOf top then popGE precT restOps (.op top :: out)
    else (top :: restOps, out)

/-- The `)` case: pop to the matching `(`; `none` when there is none. -/
def popToParen : List Char → List OutItem → Option (List Char × List OutItem)
  | [], _ => none
  | top :: restOps, out =>
    if top = '(' then some (restOps, out)
    else popToParen restOps (.op top :: out)

/-- The final drain of the operator stack; a leftover `(` means the whole
expression is unresolved. -/
def drainOps : List Char → List OutItem → Option (List OutItem)
  | [], out => some out
  | top :: rest, out => if top = '(' then none else drainOps rest (.op top :: out)

/-- The shunting-yard loop of `parseNumericExpr` (identifiers are
resolved against `constants` as they are emitted; an unknown identifier
makes the whole expression unresolved).  The output list is accumulated
in reverse. -/
def syGo (constants : List (String × Int)) :
    List NumericToken → List Char → List OutItem → Option (List OutItem)
  | [], ops, out => drainOps ops out
  | .num v :: ts, ops, out => syGo constants ts ops (.num v :: out)
  | .ident name :: ts, ops, out =>
    match alGet constants name with
    | none => none
    | some v => syGo constants ts ops (.num v :: out)
  | .op c :: ts, ops, out =>
    let po := popGE (precOf c) ops out
    syGo constants ts (c :: po.1) po.2
  | .paren c :: ts, ops, out =>
    if c = '(' then syGo constants ts ('(' :: ops) out
    else
      match popToParen ops out with
      | none => none
      | some p => syGo constants ts p.1 p.2

/-- The postfix evaluation loop of `parseNumericExpr` (single integer
stack; the second pop is the left operand). -/
def evalPostfixGo : List OutItem → List Int → Option Int
  | [], [v] => some v
  | [], _ => none
  | .num v :: items, stack => evalPostfixGo items (v :: stack)
  | .op c :: items, stack =>
    match stack with
    | b :: a :: rest =>
      if c = '+' then evalPostfixGo items ((a + b) :: rest)
      else if c = '-' then evalPostfixGo items ((a - b) :: rest)
      else if c = '*' then evalPostfixGo items ((a * b) :: rest)
      else none
    | _ => none

/-- `parseNumericExpr` from the header extractor. -/
def parseNumericExpr (expr : String) (constants : List (String × Int)) : Option Int :=
  match tokenizeNumericExpr expr with
  | none => none
  | some tokens =>
    match syGo constants tokens [] [] with
    | none => none
    | some out => evalPostfixGo out.reverse []

/-- One attempt of the `constexpr` definition pattern
`constexpr\s+[A-Za-z0-9_:<>]+\s+([A-Za-z_][A-Za-z0-9_]*)\s*=\s*([^;]+);`
at the current position, returning the captured name, the trimmed
captured expression, and the rest of the input after the match.  All
quantifiers in this pattern are forced (each repeated class is disjoint
from the character that must follow), so the greedy scan below is exactly
the regular-expression semantics. -/
def constexprMatchAt (s : List Char) : Option (String × String × List Char) :=
  match stripLit "constexpr".data s with
  | none => none
  | some s1 =>
    match s1 with
    | [] => none
    | c :: _ =>
      if !jsIsSpace c then none
      else
        let s2 := s1.dropWhile jsIsSpace
        match s2.takeWhile isTypeNameChar with
        | [] => none
        | _ =>
          let s3 := s2.dropWhile isTypeNameChar
          match s3 with
          | [] => none
          | c2 :: _ =>
            if !jsIsSpace c2 then none
            else
              let s4 := s3.dropWhile jsIsSpace
              match s4.takeWhile isWordChar with
              | [] => none
              | ic :: idRest =>
                if !isIdentStartChar ic then none
                else
                  match (s4.dropWhile isWordChar).dropWhile jsIsSpace with
                  | '=' :: s6 =>
                    match s6.takeWhile (· ≠ ';') with
                    | [] => none
                    | e :: eRest =>
                      match s6.dropWhile (· ≠ ';') with
                      | ';' :: s7 =>
                        some (String.mk (ic :: idRest),
                          String.mk (listTrim (e :: eRest)), s7)
                      | _ => none
                  | _ => none

/-- The `constexpr` `matchAll` loop of `extractNumericConstants`: scan
left to right, evaluate each match against the map built so far, record
it on success, and continue after the match. -/
def scanConstexprs : Nat → List Char → List (String × Int) → List (String × Int)
  | 0, _, m => m
  | _, [], m => m
  | fuel+1, c :: rest, m =>
    match constexprMatchAt (c :: rest) with
    | some r =>
      let m' :=
        match parseNumericExpr r.2.1 m with
        | some v => alSet m r.1 v
        | none => m
      scanConstexprs fuel r.2.2 m'
    | none => scanConstexprs fuel rest m

/-- One line of the multiline `#define` pattern
`^\s*#define\s+([A-Za-z_][A-Za-z0-9_]*)\s+(.+?)\s*$`, returning the name
and the trimmed value (the lazy value capture together with `\s*$` is
exactly rest-of-line right-trimmed). -/
def defineLineMatch (line : List Char) : Option (String × String) :=
  match stripLit "#define".data (line.dropWhile jsIsSpace) with
  | none => none
  | some s1 =>
    match s1 with
    | [] => none
    | c :: _ =>
      if !jsIsSpace c then none
      else
        let s2 := s1.dropWhile jsIsSpace
        match s2.takeWhile isWordChar with
        | [] => none
        | ic :: idRest =>
          if !isIdentStartChar ic then none
          else
            let s3 := s2.dropWhile isWordChar
            match s3 with
            | [] => none
            | c2 :: _ =>
              if !jsIsSpace c2 then none
              else
                match listTrim s3 with
                | [] => none
                | e :: eRest => some (String.mk (ic :: idRest), String.mk (e :: eRest))

/-- The `#define` `matchAll` loop of `extractNumericConstants`, one line
at a time, in textual order. -/
def scanDefines (lines : List (List Char)) (m0 : List (String × Int)) :
    List (String × Int) :=
  lines.foldl (fun m line =>
    match defineLineMatch line with
    | some r =>
      match parseNumericExpr r.2 m with
      | some v => alSet m r.1 v
      | none => m
    | none => m) m0

/-- `extractNumericConstants` from the header extractor: the map is
seeded with `X_MULTIPLIER = 1`, then extended by all `constexpr`
definitions in textual order, then by all `#define` definitions in
textual order. -/
def extractNumericConstants (source : String) : List (String × Int) :=
  let src := source.data
  let m0 := [("X_MULTIPLIER", (1 : Int))]
  let m1 := scanConstexprs (src.length + 1) src m0
  scanDefines (splitOnChar '\n' src) m1

/-! ## Entry registration extractor (`extractRegisteredEntries`) -/

structure Registered where
  kind : EntryKind
  name : String
  inputType : Int
deriving DecidableEq

/-- The maximal backward identifier run at the front of a *reversed*
piece of text: returns the identifier in forward order (its first
character must match `[A-Za-z_]`) and the rest of the reversed text. -/
def takeIdentRunBack (r : List Char) : Option (List Char × List Char) :=
  match r.takeWhile isWordChar with
  | [] => none
  | run =>
    let fwd := run.reverse
    match fwd with
    | fc :: _ =>
      if isIdentStartChar fc then some (fwd, r.dropWhile isWordChar) else none
    | [] => none

/-- One attempt of
`REGISTER_USER_(FUNCTION|PROCEDURE)\s*\(\s*(ident)\s*,\s*(\d+)\s*\)\s*;`
at the current position (every quantifier of this pattern is forced, so
the greedy scan is the regular-expression semantics), returning the name,
the numeric discriminant and the rest of the input after the match. -/
def matchRegisterAt (macroLit : List Char) (s : List Char) :
    Option (String × Nat × List Char) :=
  match stripLit macroLit s with
  | none => none
  | some s1 =>
    match s1.dropWhile jsIsSpace with
    | '(' :: s3 =>
      let s4 := s3.dropWhile jsIsSpace
      match s4.takeWhile isWordChar with
      | [] => none
      | ic :: idRest =>
        if !isIdentStartChar ic then none
        else
          match (s4.dropWhile isWordChar).dropWhile jsIsSpace with
          | ',' :: s6 =>
            let s7 := s6.dropWhile jsIsSpace
            match s7.takeWhile isDigitChar with
            | [] => none
            | d :: ds =>
              match (s7.dropWhile isDigitChar).dropWhile jsIsSpace with
              | ')' :: s9 =>
                match s9.dropWhile jsIsSpace with
                | ';' :: s10 =>
                  some (String.mk (ic :: idRest), natOfDigits (d :: ds), s10)
                | _ => none
              | _ => none
          | _ => none
    | _ => none

/-- The `matchAll` loop over one macro pattern (fuel = input length + 1,
never exhausted since every step consumes at least one character). -/
def scanRegisters (macroLit : List Char) (kind : EntryKind) :
    Nat → List Char → List Registered
  | 0, _ => []
  | _, [] => []
  | fuel+1, c :: rest =>
    match matchRegisterAt macroLit (c :: rest) with
    | some r => ⟨kind, r.1, (r.2.1 : Int)⟩ :: scanRegisters macroLit kind fuel r.2.2
    | none => scanRegisters macroLit kind fuel rest

/-- `extractRegisteredEntries`: all functions (in textual order), then
all procedures (in textual order). -/
def extractRegisteredEntries (source : String) : List Registered :=
  let src := source.data
  scanRegisters "REGISTER_USER_FUNCTION".data .function (src.length + 1) src ++
    scanRegisters "REGISTER_USER_PROCEDURE".data .procedure (src.length + 1) src

/-! ## Type alias table (`extractTypeAliases`) -/

/-- One line of `^\s*typedef\s+([^;]+?)\s+([A-Za-z_][A-Za-z0-9_]*)\s*;\s*$`,
returning `(name, trimmed type expression)` (the name is the *second*
capture). -/
def typedefLineMatch (line : List Char) : Option (String × String) :=
  match stripLit "typedef".data (line.dropWhile jsIsSpace) with
  | none => none
  | some s1 =>
    match s1 with
    | [] => none
    | c :: _ =>
      if !jsIsSpace c then none
      else
        let s2 := s1.dropWhile jsIsSpace
        let r := s2.reverse.dropWhile jsIsSpace
        match r with
        | ';' :: r1 =>
          match takeIdentRunBack (r1.dropWhile jsIsSpace) with
          | none => none
          | some (name, r3) =>
            match r3 with
            | c2 :: _ =>
              if !jsIsSpace c2 then none
              else
                let mid := (r3.dropWhile jsIsSpace).reverse
                if mid = [] || mid.contains ';' then none
                else some (String.mk name, String.mk (listTrim mid))
            | [] => none
        | _ => none

/-- One line of `^\s*using\s+([A-Za-z_][A-Za-z0-9_]*)\s*=\s*([^;]+?)\s*;\s*$`,
returning `(name, trimmed type expression)`. -/
def usingLineMatch (line : List Char) : Option (String × String) :=
  match stripLit "using".data (line.dropWhile jsIsSpace) with
  | none => none
  | some s1 =>
    match s1 with
    | [] => none
    | c :: _ =>
      if !jsIsSpace c then none
      else
        let s2 := s1.dropWhile jsIsSpace
        match s2.takeWhile isWordChar with
        | [] => none
        | ic :: idRest =>
          if !isIdentStartChar ic then none
          else
            match (s2.dropWhile isWordChar).dropWhile jsIsSpace with
            | '=' :: s4 =>
              let s5 := s4.dropWhile jsIsSpace
              match s5.takeWhile (· ≠ ';') with
              | [] => none
              | e :: eRest =>
                match s5.dropWhile (· ≠ ';') with
                | ';' :: s7 =>
                  if s7.dropWhile jsIsSpace = [] then
                    some (String.mk (ic :: idRest), String.mk (listTrim (e :: eRest)))
                  else none
                | _ => none
            | _ => none

/-- `extractTypeAliases`: all `typedef` lines in textual order, then all
`using` lines in textual order. -/
def extractTypeAliases (source : String) : List (String × String) :=
  let lines := splitOnChar '\n' source.data
  let m1 := lines.foldl (fun m line =>
    match typedefLineMatch line with
    | some r => alSet m r.1 r.2
    | none => m) []
  lines.foldl (fun m line =>
    match usingLineMatch line with
    | some r => alSet m r.1 r.2
    | none => m) m1

/-! ## Struct field parser and type reference resolver -/

/-- The `replace(/\/\*[\s\S]*?\*\//g, "")` pass of `stripComments` (an
unterminated `/*` is not a match and stays). -/
def stripBlockComments : Nat → List Char → List Char
  | 0, s => s
  | _, [] => []
  | fuel+1, c :: rest =>
    if listStartsWith "/*".data (c :: rest) then
      match indexOfSub "*/".data (rest.drop 1) with
      | none => c :: rest
      | some k => stripBlockComments fuel ((rest.drop 1).drop (k + 2))
    else c :: stripBlockComments fuel rest

/-- The `replace(/\/\/.*$/gm, "")` pass of `stripComments` (drop from
`//` up to, not including, the next line terminator). -/
def stripLineComments : Nat → List Char → List Char
  | 0, s => s
  | _, [] => []
  | fuel+1, c :: rest =>
    if listStartsWith "//".data (c :: rest) then
      stripLineComments fuel
        ((c :: rest).dropWhile (fun ch => ch ≠ '\n' && ch ≠ '\r'))
    else c :: stripLineComments fuel rest

/-- `stripComments` from the header extractor. -/
def stripComments (s : List Char) : List Char :=
  stripLineComments (s.length + 1) (stripBlockComments (s.length + 1) s)

/-- `replace(/\r?\n/g, " ")`. -/
def newlinesToSpace : List Char → List Char
  | [] => []
  | '\r' :: '\n' :: rest => ' ' :: newlinesToSpace rest
  | '\n' :: rest => ' ' :: newlinesToSpace rest
  | c :: rest => c :: newlinesToSpace rest

/-- A keyword at the start of a (trimmed) statement followed by a word
boundary (`\b`). -/
def kwAt (kw : List Char) (s : List Char) : Bool :=
  match stripLit kw s with
  | none => false
  | some r => boundaryAfter r

/-- `^\s*(struct|class|enum|union)\b` on a trimmed statement. -/
def startsWithTypeKeyword (s : List Char) : Bool :=
  kwAt "struct".data s || kwAt "class".data s || kwAt "enum".data s ||
    kwAt "union".data s

/-- The array-field pattern
`^(.+?)\s+([A-Za-z_][A-Za-z0-9_]*)\s*\[\s*([A-Za-z0-9_]+)\s*]\s*$`,
parsed from the right (the lazy head capture makes the name the *last*
identifier before the bracket); returns the trimmed raw type, the field
name and the length token. -/
def matchArrayField (stmt : List Char) : Option (List Char × String × String) :=
  match stmt.reverse.dropWhile jsIsSpace with
  | ']' :: r1 =>
    let r2 := r1.dropWhile jsIsSpace
    match r2.takeWhile isWordChar with
    | [] => none
    | tok =>
      match (r2.dropWhile isWordChar).dropWhile jsIsSpace with
      | '[' :: r4 =>
        match takeIdentRunBack (r4.dropWhile jsIsSpace) with
        | none => none
        | some (name, r6) =>
          match r6 with
          | c :: _ =>
            if jsIsSpace c then
              let r7 := r6.dropWhile jsIsSpace
              if r7 = [] then none
              else some (listTrim r7.reverse, String.mk name, String.mk tok.reverse)
            else none
          | [] => none
      | _ => none
  | _ => none

/-- Backward collection of the trailing comma-separated identifier list
of the multi-name pattern; candidates with more names come first,
matching the lazy head capture (shortest raw type first). -/
def collectNamesBack : Nat → List Char → List String →
    List (List String × List Char)
  | 0, _, _ => []
  | fuel+1, r, acc =>
    match takeIdentRunBack r with
    | none => []
    | some (name, r') =>
      let cand := (String.mk name :: acc, r')
      match r'.dropWhile jsIsSpace with
      | ',' :: r3 =>
        collectNamesBack fuel (r3.dropWhile jsIsSpace) (String.mk name :: acc) ++ [cand]
      | _ => [cand]

/-- Select the first candidate whose prefix still leaves a non-empty raw
type separated by whitespace (`(.+?)\s+`). -/
def pickNamesCandidate : List (List String × List Char) →
    Option (List Char × List String)
  | [] => none
  | (names, r') :: rest =>
    match r' with
    | c :: _ =>
      if jsIsSpace c && (r'.dropWhile jsIsSpace) ≠ [] then
        some (listTrim (r'.dropWhile jsIsSpace).reverse, names)
      else pickNamesCandidate rest
    | [] => pickNamesCandidate rest

/-- The multi-name pattern
`^(.+?)\s+([A-Za-z_][A-Za-z0-9_]*(?:\s*,\s*[A-Za-z_][A-Za-z0-9_]*)*)\s*$`,
returning the trimmed raw type and the name list in declaration order. -/
def matchMultiName (stmt : List Char) : Option (List Char × List String) :=
  pickNamesCandidate
    (collectNamesBack (stmt.length + 1) (stmt.reverse.dropWhile jsIsSpace) [])

/-- `parseLen` from the header extractor: a pure digit token is a
literal, otherwise a constant lookup; negative values are rejected
(`Number.isInteger` is intrinsic in the `Int` model). -/
def parseLen (token : String) (constants : List (String × Int)) : Option Int :=
  let n : Option Int :=
    if token.data ≠ [] && token.data.all isDigitChar then
      some ((natOfDigits token.data : Nat) : Int)
    else alGet constants token
  match n with
  | none => none
  | some v => if v < 0 then none else some v

/-- The pattern `^Array\s*<\s*([^,>]+)\s*,\s*([^>]+)\s*>\s*$`, returning
the trimmed item type and length token. -/
def matchArrayTpl (s : List Char) : Option (String × String) :=
  match stripLit "Array".data s with
  | none => none
  | some s1 =>
    match s1.dropWhile jsIsSpace with
    | '<' :: s3 =>
      let s4 := s3.dropWhile jsIsSpace
      match s4.takeWhile (fun c => c ≠ ',' && c ≠ '>') with
      | [] => none
      | item =>
        match s4.dropWhile (fun c => c ≠ ',' && c ≠ '>') with
        | ',' :: s5 =>
          let s6 := s5.dropWhile jsIsSpace
          match s6.takeWhile (· ≠ '>') with
          | [] => none
          | tok =>
            match s6.dropWhile (· ≠ '>') with
            | '>' :: s7 =>
              if s7.dropWhile jsIsSpace = [] then
                some (String.mk (listTrim item), String.mk (listTrim tok))
              else none
            | _ => none
        | _ => none
    | _ => none

/-- The pattern `^BitArray\s*<\s*([^>]+)\s*>\s*$`. -/
def matchBitArrayTpl (s : List Char) : Option String :=
  match stripLit "BitArray".data s with
  | none => none
  | some s1 =>
    match s1.dropWhile jsIsSpace with
    | '<' :: s3 =>
      let s4 := s3.dropWhile jsIsSpace
      match s4.takeWhile (· ≠ '>') with
      | [] => none
      | tok =>
        match s4.dropWhile (· ≠ '>') with
        | '>' :: s7 =>
          if s7.dropWhile jsIsSpace = [] then some (String.mk (listTrim tok))
          else none
        | _ => none
    | _ => none

/-- The primitive item of the `{u|s}int{8|16|32|64}_N` convention. -/
def intItemOf (signed : Bool) (width : Nat) : QbiTypeRef :=
  if signed then
    if width = 8 then .i8 else if width = 16 then .i16
    else if width = 32 then .i32 else .i64
  else
    if width = 8 then .u8 else if width = 16 then .u16
    else if width = 32 then .u32 else .u64

/-- One width alternative of the `^(sint|uint)(8|16|32|64)_(\d+)$`
pattern (the source's `Number.isInteger`/`>= 0` re-check always holds for
a digit run in the `Int` model). -/
def tryIntWidth (rest : List Char) (signed : Bool) (w : Nat)
    (wLit : List Char) : Option QbiTypeRef :=
  match stripLit wLit rest with
  | none => none
  | some r1 =>
    match r1 with
    | '_' :: ds =>
      if ds ≠ [] && ds.all isDigitChar then
        some (.array ((natOfDigits ds : Nat) : Int) (intItemOf signed w))
      else none
    | _ => none

/-- The width alternation `(8|16|32|64)` in the source's order. -/
def matchIntArrayGo (rest : List Char) (signed : Bool) : Option QbiTypeRef :=
  match tryIntWidth rest signed 8 "8".data with
  | some t => some t
  | none =>
    match tryIntWidth rest signed 16 "16".data with
    | some t => some t
    | none =>
      match tryIntWidth rest signed 32 "32".data with
      | some t => some t
      | none => tryIntWidth rest signed 64 "64".data

/-- The pattern `^(sint|uint)(8|16|32|64)_(\d+)$`. -/
def matchIntArrayAlias (s : List Char) : Option QbiTypeRef :=
  match stripLit "sint".data s with
  | some rest => matchIntArrayGo rest true
  | none =>
    match stripLit "uint".data s with
    | some rest => matchIntArrayGo rest false
    | none => none

/-- The pattern `^id_(\d+)$`. -/
def matchIdAlias (s : List Char) : Option QbiTypeRef :=
  match stripLit "id_".data s with
  | none => none
  | some ds =>
    if ds ≠ [] && ds.all isDigitChar then
      some (.array ((natOfDigits ds : Nat) : Int) .m256i)
    else none

/-- `Math.max(1, Math.ceil(bits / 64))` for a non-negative number of
bits (`(bits + 63) / 64` is that ceiling on non-negative integers). -/
def bitWordCount (bits : Int) : Int :=
  max 1 ((bits + 63) / 64)

/-- The pattern `^bit_(\d+)$`. -/
def matchBitAlias (s : List Char) : Option QbiTypeRef :=
  match stripLit "bit_".data s with
  | none => none
  | some ds =>
    if ds ≠ [] && ds.all isDigitChar then
      some (.array (bitWordCount ((natOfDigits ds : Nat) : Int)) .u64)
    else none

/-- The literal-spelling `switch` of `parseTypeRef`, including the fixed
catalog of known aggregate types. -/
def matchKnownType : String → Option QbiTypeRef
  | "uint8" | "unsigned char" => some .u8
  | "sint8" | "signed char" => some .i8
  | "uint16" | "unsigned short" => some .u16
  | "sint16" | "signed short" => some .i16
  | "uint32" | "unsigned int" => some .u32
  | "sint32" | "signed int" => some .i32
  | "uint64" | "unsigned long long" => some .u64
  | "sint64" | "signed long long" | "long long" => some .i64
  | "bool" | "bit" => some .bool
  | "id" | "m256i" => some .m256i
  | "Asset" =>
    some (.struct (.cons "issuer" .m256i (.cons "assetName" .u64 .nil)))
  | "ProposalSingleVoteDataV1" =>
    some (.struct (.cons "proposalIndex" .u16 (.cons "proposalType" .u16
      (.cons "proposalTick" .u32 (.cons "voteValue" .i64 .nil)))))
  | "ProposalMultiVoteDataV1" =>
    some (.struct (.cons "proposalIndex" .u16 (.cons "proposalType" .u16
      (.cons "proposalTick" .u32 (.cons "voteValues" (.array 8 .i64)
        (.cons "voteCounts" (.array 8 .u32) .nil))))))
  | "ProposalSummarizedVotingDataV1" =>
    some (.struct (.cons "proposalIndex" .u16 (.cons "optionCount" .u16
      (.cons "proposalTick" .u32 (.cons "totalVotesAuthorized" .u32
        (.cons "totalVotesCasted" .u32 (.cons "resultBytes" (.bytes 32) .nil)))))))
  | "ProposalDataYesNo" => some (.bytes 304)
  | _ => none

/-- The pattern `^ProposalDataV1\s*<\s*(true|false)\s*>\s*$` (fixed
328-byte layout regardless of the template argument). -/
def matchProposalDataV1 (s : List Char) : Option QbiTypeRef :=
  match stripLit "ProposalDataV1".data s with
  | none => none
  | some s1 =>
    match s1.dropWhile jsIsSpace with
    | '<' :: s3 =>
      let s4 := s3.dropWhile jsIsSpace
      let rest :=
        match stripLit "true".data s4 with
        | some r => some r
        | none => stripLit "false".data s4
      match rest with
      | none => none
      | some r =>
        match r.dropWhile jsIsSpace with
        | '>' :: s7 =>
          if s7.dropWhile jsIsSpace = [] then some (.bytes 328) else none
        | _ => none
    | _ => none

/-- The read-only context threaded through resolution (the mutable
`warnings`/`structCache` live in `St`). -/
structure Ctx where
  constants : List (String × Int)
  aliases : List (String × String)
  headerSource : String

/-- The mutable per-compilation state: the struct-resolution cache and
the warnings list. -/
structure St where
  structCache : List (String × QbiTypeRef)
  warnings : List String
deriving DecidableEq

def warn (st : St) (w : String) : St :=
  { st with warnings := st.warnings ++ [w] }

inductive ParseCall where
  | typeRef (rawType : String)
  | fields (body : String)
deriving DecidableEq

/-- `rawType.replace(/^const\s+/, "").replace(/&$/, "").trim()`. -/
def stripConstRef (rawType : String) : List Char :=
  let s := rawType.data
  let s1 :=
    match stripLit "const".data s with
    | some r =>
      match r with
      | c :: _ => if jsIsSpace c then r.dropWhile jsIsSpace else s
      | [] => s
    | none => s
  let s2 :=
    match s1.reverse with
    | '&' :: r => r.reverse
    | _ => s1
  listTrim s2

/-- `t.replace(/^QPI::/, "")`. -/
def stripQpiNs (t : List Char) : List Char :=
  match stripLit "QPI::".data t with
  | some r => r
  | none => t

/-- The final same-header struct lookup of `parseTypeRef`: the
memoization cache is consulted first, and a freshly resolved struct is
cached only *after* the recursive resolution returns. -/
def structLookup (recur : ParseCall → St → Option (QbiTypeRef × St))
    (noNsStr : String) (ctx : Ctx) (st : St) : Option (QbiTypeRef × St) :=
  match alGet st.structCache noNsStr with
  | some cached => some (cached, st)
  | none =>
    match extractStructBody ctx.headerSource noNsStr with
    | some body =>
      match recur (.fields body) st with
      | none => none
      | some r =>
        some (r.1, { r.2 with structCache := alSet r.2.structCache noNsStr r.1 })
    | none =>
      some (.bytes 0,
        warn st ("Unknown type: " ++ noNsStr ++ " (treated as bytes[0])"))

/-- The body of `parseTypeRef`, with the recursive calls abstracted as
`recur` (supplied by the fuelled `parseF`).  The cascade order is the
source's. -/
def parseTypeRefCore (recur : ParseCall → St → Option (QbiTypeRef × St))
    (rawType : String) (ctx : Ctx) (st : St) : Option (QbiTypeRef × St) :=
  let noNs := stripQpiNs (stripConstRef rawType)
  let noNsStr := String.mk noNs
  match matchArrayTpl noNs with
  | some r =>
    match parseLen r.2 ctx.constants with
    | none =>
      some (.bytes 0, warn st ("Could not resolve Array length token: " ++ r.2))
    | some len =>
      match recur (.typeRef r.1) st with
      | none => none
      | some ri => some (.array len ri.1, ri.2)
  | none =>
  match matchBitArrayTpl noNs with
  | some tok =>
    match parseLen tok ctx.constants with
    | none =>
      some (.bytes 0, warn st ("Could not resolve BitArray length token: " ++ tok))
    | some bits => some (.array (bitWordCount bits) .u64, st)
  | none =>
  match matchIntArrayAlias noNs with
  | some t => some (t, st)
  | none =>
  match matchIdAlias noNs with
  | some t => some (t, st)
  | none =>
  match matchBitAlias noNs with
  | some t => some (t, st)
  | none =>
  match matchKnownType noNsStr with
  | some t => some (t, st)
  | none =>
  match matchProposalDataV1 noNs with
  | some t => some (t, st)
  | none =>
  match alGet ctx.aliases noNsStr with
  | some aliased =>
    if aliased ≠ "" && aliased ≠ noNsStr then recur (.typeRef aliased) st
    else structLookup recur noNsStr ctx st
  | none => structLookup recur noNsStr ctx st

/-- The statement loop of `parseStructFields`. -/
def goFields (recur : ParseCall → St → Option (QbiTypeRef × St)) (ctx : Ctx) :
    List (List Char) → St → List (String × QbiTypeRef) →
    Option (List (String × QbiTypeRef) × St)
  | [], st, acc => some (acc.reverse, st)
  | stmt :: rest, st, acc =>
    if stmt ≠ [] && stmt.all (fun c => c = '{' || c = '}') then
      goFields recur ctx rest st acc
    else if stmt.contains '(' then goFields recur ctx rest st acc
    else if startsWithTypeKeyword stmt then goFields recur ctx rest st acc
    else if stmt.head? = some '#' then goFields recur ctx rest st acc
    else
      match matchArrayField stmt with
      | some (rawType, name, lenToken) =>
        match parseLen lenToken ctx.constants with
        | none =>
          goFields recur ctx rest
            (warn st ("Could not resolve array length token: " ++ lenToken)) acc
        | some len =>
          match recur (.typeRef (String.mk rawType)) st with
          | none => none
          | some ri =>
            goFields recur ctx rest ri.2 ((name, .array len ri.1) :: acc)
      | none =>
        match matchMultiName stmt with
        | some (rawType, names) =>
          match recur (.typeRef (String.mk rawType)) st with
          | none => none
          | some ri =>
            goFields recur ctx rest ri.2
              ((names.map (fun n => (n, ri.1))).reverse ++ acc)
        | none =>
          goFields recur ctx rest
            (warn st ("Unrecognized field statement: " ++ String.mk stmt)) acc

def fieldsOfList : List (String × QbiTypeRef) → QbiFields
  | [] => .nil
  | (n, t) :: rest => .cons n t (fieldsOfList rest)

/-- The body of `parseStructFields`: strip comments, flatten newlines,
split on `;`, trim, drop empties, then the statement loop. -/
def parseFieldsCore (recur : ParseCall → St → Option (QbiTypeRef × St))
    (body : String) (ctx : Ctx) (st : St) : Option (QbiTypeRef × St) :=
  let statements :=
    ((splitOnChar ';' (newlinesToSpace (stripComments body.data))).map
      listTrim).filter (· ≠ [])
  match goFields recur ctx statements st [] with
  | none => none
  | some r => some (.struct (fieldsOfList r.1), r.2)

/-- The mutual recursion `parseTypeRef` ↔ `parseStructFields`, with an
explicit fuel; `none` means the recursion did not complete within `fuel`
nested calls (the source recurses unboundedly in exactly these runs). -/
def parseF : Nat → ParseCall → Ctx → St → Option (QbiTypeRef × St)
  | 0, _, _, _ => none
  | fuel+1, .typeRef rawType, ctx, st =>
    parseTypeRefCore (fun c s => parseF fuel c ctx s) rawType ctx st
  | fuel+1, .fields body, ctx, st =>
    parseFieldsCore (fun c s => parseF fuel c ctx s) body ctx st

/-! ## Header compiler (`compileContractHeader`) -/

/-- `normalizeNoData`: only a zero-field struct is rewritten, to
`nodata` carrying the already-computed size. -/
def normalizeNoData (typeRef : QbiTypeRef) (expectedSize : Int) : QbiTypeRef :=
  match typeRef with
  | .struct .nil => .nodata (some expectedSize)
  | t => t

/-- `a.name.localeCompare(b.name)`, modelled as code-unit lexicographic
comparison (the collation actually used is locale-dependent; the entries
order below is stated against this model). -/
def localeCompareInt (a b : String) : Int :=
  if a < b then -1 else if b < a then 1 else 0

/-- The sort comparator `a.inputType - b.inputType || localeCompare`. -/
def entryCompare (a b : QbiEntry) : Int :=
  let d := a.inputType - b.inputType
  if d = 0 then localeCompareInt a.name b.name else d

/-- Stable insertion with respect to a three-way comparator (the new
element goes before the first element that is not strictly smaller). -/
def insertCmp (cmp : α → α → Int) (a : α) : List α → List α
  | [] => [a]
  | b :: bs => if cmp b a < 0 then b :: insertCmp cmp a bs else a :: b :: bs

/-- `Array.prototype.sort` with a consistent comparator, modelled as the
(stable) insertion sort — the ECMAScript sort is required to be stable,
and a stable sort's output is unique for a consistent comparator. -/
def insertionSortCmp (cmp : α → α → Int) : List α → List α
  | [] => []
  | x :: xs => insertCmp cmp x (insertionSortCmp cmp xs)

structure CompileOptions where
  contractName : String
  contractIndex : Option Int
  contractPublicKeyHex : Option String
  sourcePath : Option String
  sourceRepo : Option String
  sourceRevision : Option String
  generatorVersion : Option String
  includeGeneratedAt : Option Bool
deriving DecidableEq

/-- One side of an entry: locate `<name>_input`/`<name>_output` and
resolve it, or `nodata` (without `expectedSize`) when absent. -/
def resolveSideF (fuel : Nat) (ctx : Ctx) (st : St) (structName : String) :
    Option (QbiTypeRef × St) :=
  match extractStructBody ctx.headerSource structName with
  | some body => parseF fuel (.fields body) ctx st
  | none => some (.nodata none, st)

/-- The per-entry loop of `compileContractHeader` (threading the struct
cache and warnings through the entries in registration order). -/
def compileEntriesF (fuel : Nat) (ctx : Ctx) :
    List Registered → St → Option (Except String (List QbiEntry × St))
  | [], st => some (.ok ([], st))
  | e :: rest, st =>
    match resolveSideF fuel ctx st (e.name ++ "_input") with
    | none => none
    | some (inTy, st1) =>
      match resolveSideF fuel ctx st1 (e.name ++ "_output") with
      | none => none
      | some (outTy, st2) =>
        match cppLayoutOf inTy with
        | .error m => some (.error m)
        | .ok inL =>
          match cppLayoutOf outTy with
          | .error m => some (.error m)
          | .ok outL =>
            match compileEntriesF fuel ctx rest st2 with
            | none => none
            | some (.error m) => some (.error m)
            | some (.ok r) =>
              some (.ok (⟨e.kind, e.name, e.inputType,
                normalizeNoData inTy inL.size, normalizeNoData outTy outL.size,
                some inL.size, some outL.size⟩ :: r.1, r.2))

/-- `compileContractHeader`.  `now` stands for `new Date().toISOString()`
(an input of the model); `fuel` bounds the resolution recursion depth,
with `none` meaning the source would not have terminated within it. -/
def compileContractHeader (fuel : Nat) (headerSource : String)
    (options : CompileOptions) (now : String) : Option (Except String QbiFile) :=
  let constants := extractNumericConstants headerSource
  let aliases := extractTypeAliases headerSource
  let entries := extractRegisteredEntries headerSource
  let ctx : Ctx := ⟨constants, aliases, headerSource⟩
  match compileEntriesF fuel ctx entries ⟨[], []⟩ with
  | none => none
  | some (.error e) => some (.error e)
  | some (.ok r) =>
    some (.ok {
      qbiVersion := "0.1"
      contract := ⟨options.contractName, options.contractIndex,
        options.contractPublicKeyHex, none⟩
      entries := insertionSortCmp entryCompare r.1
      meta := some ⟨options.sourcePath, options.sourceRepo,
        options.sourceRevision,
        (if options.includeGeneratedAt = some false then none else some now),
        some "qbi (header-extractor)", options.generatorVersion,
        (if r.2.warnings = [] then none else some r.2.warnings)⟩ })

/-! ## Structural validator (src/validate.ts)

The validator is embedded over the typed document model; the purely
dynamic checks of the source (`isObject`, `Array.isArray`, "type is
unknown", string-typed `contractId`) are unrepresentable failures there
and drop out.  The `cppLayoutOf` recomputation inside the size checks can
throw, hence the `Except`. -/

structure QbiValidationResult where
  ok : Bool
  errors : List String
deriving DecidableEq

/-- `isUint` (integrality is intrinsic in the `Int` model). -/
def isUintI (v : Int) : Bool := 0 ≤ v

def isHexDigitChar (c : Char) : Bool :=
  isDigitChar c || ('a' ≤ c && c ≤ 'f') || ('A' ≤ c && c ≤ 'F')

/-- `isHex(value, length)`: exact length and `/^[0-9a-f]+$/i`. -/
def isHex (value : String) (length : Nat) : Bool :=
  value.length = length && value.data ≠ [] && value.data.all isHexDigitChar

mutual

/-- `validateTypeRef` from validate.ts (error-message accumulation in
source order). -/
def validateTypeRef : QbiTypeRef → String → List String
  | .nodata e, path =>
    match e with
    | none => []
    | some v =>
      if isUintI v then [] else [path ++ ".expectedSize must be an integer >= 0"]
  | .u8, _ | .u16, _ | .u32, _ | .u64, _ => []
  | .i8, _ | .i16, _ | .i32, _ | .i64, _ => []
  | .bool, _ | .m256i, _ => []
  | .bytes l, path =>
    if isUintI l then [] else [path ++ ".length must be an integer >= 0"]
  | .array l item, path =>
    (if isUintI l then [] else [path ++ ".length must be an integer >= 0"]) ++
      validateTypeRef item (path ++ ".item")
  | .struct fs, path => validateFieldsGo fs path 0

/-- The indexed field loop of the `struct` case of `validateTypeRef`. -/
def validateFieldsGo : QbiFields → String → Nat → List String
  | .nil, _, _ => []
  | .cons n t rest, path, i =>
    let fPath := path ++ ".fields[" ++ Nat.repr i ++ "]"
    (if n = "" then [fPath ++ ".name must be a non-empty string"] else []) ++
      validateTypeRef t (fPath ++ ".typeRef") ++
      validateFieldsGo rest path (i + 1)

end

/-- One optional stored size against the recomputed layout
(`inputSize`/`outputSize` checks of `validateEntry`). -/
def validateStoredSize (stored : Option Int) (t : QbiTypeRef)
    (label : String) : Except String (List String) :=
  match stored with
  | none => .ok []
  | some s =>
    if isUintI s then
      match cppLayoutOf t with
      | .error m => .error m
      | .ok l =>
        if l.size ≠ s then
          .ok [label ++ " expected " ++ toString l.size ++ ", got " ++ toString s]
        else .ok []
    else .ok [label ++ " must be an integer >= 0"]

/-- `validateEntry` from validate.ts. -/
def validateEntry (e : QbiEntry) (path : String) : Except String (List String) :=
  let kindErrs : List String :=
    if e.kind = .function || e.kind = .procedure then []
    else [path ++ ".kind must be a function or procedure marker"]
  let nameErrs : List String :=
    if e.name = "" then [path ++ ".name must be a non-empty string"] else []
  let itErrs : List String :=
    if isUintI e.inputType then []
    else [path ++ ".inputType must be an integer >= 0"]
  let inErrs := validateTypeRef e.input (path ++ ".input")
  let outErrs := validateTypeRef e.output (path ++ ".output")
  match validateStoredSize e.inputSize e.input (path ++ ".inputSize") with
  | .error m => .error m
  | .ok inSizeErrs =>
    match validateStoredSize e.outputSize e.output (path ++ ".outputSize") with
    | .error m => .error m
    | .ok outSizeErrs =>
      .ok (kindErrs ++ nameErrs ++ itErrs ++ inErrs ++ outErrs ++
        inSizeErrs ++ outSizeErrs)

/-- The indexed entry loop of `validateQbiFile`. -/
def validateEntriesGo (i : Nat) : List QbiEntry → Except String (List String)
  | [] => .ok []
  | e :: rest =>
    match validateEntry e ("entries[" ++ Nat.repr i ++ "]") with
    | .error m => .error m
    | .ok errs =>
      match validateEntriesGo (i + 1) rest with
      | .error m => .error m
      | .ok more => .ok (errs ++ more)

/-- The contract checks of `validateQbiFile` (a `contractId`, when
present, is a string by typing). -/
def validateContract (c : QbiContract) : List String :=
  (if c.name = "" then ["contract.name must be a non-empty string"] else []) ++
    (match c.contractIndex with
     | some i =>
       if isUintI i then [] else ["contract.contractIndex must be an integer >= 0"]
     | none => []) ++
    (match c.contractPublicKeyHex with
     | some k =>
       if isHex k 64 then []
       else ["contract.contractPublicKeyHex must be a 32-byte hex string"]
     | none => [])

/-- `validateQbiFile` from validate.ts. -/
def validateQbiFile (value : QbiFile) : Except String QbiValidationResult :=
  let versionErrs : List String :=
    if value.qbiVersion = "0.1" then [] else ["qbiVersion must be \"0.1\""]
  match validateEntriesGo 0 value.entries with
  | .error m => .error m
  | .ok entryErrs =>
    let errors := versionErrs ++ validateContract value.contract ++ entryErrs
    if errors.isEmpty then .ok ⟨true, []⟩ else .ok ⟨false, errors⟩

/-! ## C4: divergence on a self-referential struct

`parseTypeRef` consults the struct cache *before* the recursive
resolution but populates it only *after* the recursion returns
(`structLookup`), so resolving a struct that mentions its own name
recurses with an unchanged cache and never completes. -/

def c4Header : String :=
  "struct Foo_input { Foo_input x; };\nREGISTER_USER_FUNCTION(Foo, 1);"

def c4Ctx : Ctx :=
  ⟨extractNumericConstants c4Header, extractTypeAliases c4Header, c4Header⟩

def c4Body : String := " Foo_input x; "

def stEmpty : St := ⟨[], []⟩

/-! ## C3: entries for absent input/output structs -/

def c3Opts : CompileOptions := ⟨"T", none, none, none, none, none, none, some false⟩

def c3Doc : QbiFile :=
  { qbiVersion := "0.1"
    contract := ⟨"T", none, none, none⟩
    entries := [⟨.function, "Foo", 3, .nodata none, .nodata none, some 1, some 1⟩]
    meta := some ⟨none, none, none, none, some "qbi (header-extractor)", none, none⟩ }

def c7Doc : QbiFile :=
  { qbiVersion := "0.1"
    contract := ⟨"T", none, none, none⟩
    entries := [⟨.function, "A", 1, .nodata none, .nodata none, some 1, some 1⟩,
                ⟨.function, "B", 2, .nodata none, .nodata none, some 1, some 1⟩]
    meta := some ⟨none, none, none, none, some "qbi (header-extractor)", none, none⟩ }

/-! ## Well-formedness of produced TypeRefs (toward C2) -/

mutual

/-- Well-formed TypeRef: all lengths and expected sizes non-negative and
all field names non-empty — exactly what `validateTypeRef` accepts. -/
def wfTy : QbiTypeRef → Bool
  | .nodata e =>
    match e with
    | none => true
    | some v => decide (0 ≤ v)
  | .bytes l => decide (0 ≤ l)
  | .array l item => decide (0 ≤ l) && wfTy item
  | .struct fs => wfFields fs
  | _ => true

def wfFields : QbiFields → Bool
  | .nil => true
  | .cons n t rest => decide (n ≠ "") && wfTy t && wfFields rest

end

/-- The cache invariant: every cached TypeRef is well-formed. -/
def StOK (st : St) : Prop := ∀ p ∈ st.structCache, wfTy p.2 = true

/-! ## Resolution preserves well-formedness -/

/-- `recur` behaves well: on a well-formed cache it returns a well-formed
TypeRef and preserves the cache invariant. -/
def RecurOK (recur : ParseCall → St → Option (QbiTypeRef × St)) : Prop :=
  ∀ c st r, StOK st → recur c st = some r → wfTy r.1 = true ∧ StOK r.2

/-- What `compileEntriesF` guarantees of every produced entry. -/
def EntryOk (e : QbiEntry) : Prop :=
  e.name ≠ "" ∧ 0 ≤ e.inputType ∧ wfTy e.input = true ∧ wfTy e.output = true ∧
  (∃ l, cppLayoutOf e.input = .ok l ∧ e.inputSize = some l.size ∧ 0 ≤ l.size) ∧
  (∃ l, cppLayoutOf e.output = .ok l ∧ e.outputSize = some l.size ∧ 0 ≤ l.size)

/-- The validity conditions on the compile options that C2 assumes
(spec-side: non-empty contract name, non-negative contract index,
64-char hex public key when present). -/
def validOptions (o : CompileOptions) : Bool :=
  decide (o.contractName ≠ "") &&
  (match o.contractIndex with | some i => isUintI i | none => true) &&
  (match o.contractPublicKeyHex with | some k => isHex k 64 | none => true)

def c2Header : String :=
  "struct Ping_input { uint32 x; uint8 tag; };\nREGISTER_USER_FUNCTION(Ping, 1);"

def c2Opts : CompileOptions :=
  ⟨"TestContract", some 7, none, none, none, none, none, none⟩

def c2Doc : QbiFile :=
  ⟨"0.1",
   ⟨"TestContract", some 7, none, none⟩,
   [⟨.function, "Ping", 1,
     .struct (.cons "x" .u32 (.cons "tag" .u8 .nil)),
     .nodata none, some 8, some 1⟩],
   some ⟨none, none, none, some "T", some "qbi (header-extractor)", none, none⟩⟩

theorem structLayoutGo_eq_foldl : ∀ (fields : QbiFields) (ls : List CppLayout),
    fieldsLayouts fields = .ok ls →
    ∀ offset structAlign : Int,
      structLayoutGo fields offset structAlign =
        .ok (ls.foldl
          (fun acc l => (alignUp acc.1 l.align + l.size, max acc.2 l.align))
          (offset, structAlign))
  | .nil, ls, h => by
    intro offset structAlign
    simp only [fieldsLayouts] at h
    cases h
    rfl
  | .cons name t rest, ls, h => by
    intro offset structAlign
    simp only [fieldsLayouts] at h
    cases hl : cppLayoutOf t with
    | error e => rw [hl] at h; exact absurd h (by simp)
    | ok l =>
      rw [hl] at h
      cases hrest : fieldsLayouts rest with
      | error e => rw [hrest] at h; exact absurd h (by simp)
      | ok ls' =>
        rw [hrest] at h
        simp only [Except.ok.injEq] at h
        subst h
        simp only [structLayoutGo, hl, List.foldl]
        exact structLayoutGo_eq_foldl rest ls' hrest _ _

theorem alignUp_nonneg {v a : Int} (hv : 0 ≤ v) : 0 ≤ alignUp v a := by
  unfold alignUp
  split
  · exact hv
  · rename_i h
    have ha : 0 < a := by omega
    have h1 : (-v) / a ≤ 0 := by
      have h2 := Int.ediv_le_ediv ha (show -v ≤ (0 : Int) by omega)
      simpa using h2
    exact Int.mul_nonneg (by omega) (by omega)

theorem alignSet_max {a b : Int}
    (ha : a = 1 ∨ a = 2 ∨ a = 4 ∨ a = 8)
    (hb : b = 1 ∨ b = 2 ∨ b = 4 ∨ b = 8) :
    max a b = 1 ∨ max a b = 2 ∨ max a b = 4 ∨ max a b = 8 := by
  rcases ha with h | h | h | h <;> rcases hb with h' | h' | h' | h' <;>
    subst h <;> subst h' <;> simp

mutual

theorem cppLayoutOf_isOk_eq : ∀ t : QbiTypeRef,
    exceptIsOk (cppLayoutOf t) = !hasNegLen t
  | .nodata e => by simp [cppLayoutOf, hasNegLen, exceptIsOk]
  | .u8 | .u16 | .u32 | .u64 | .i8 | .i16 | .i32 | .i64 | .bool | .m256i => by
    simp [cppLayoutOf, hasNegLen, exceptIsOk]
  | .bytes length => by
    by_cases h : length < 0 <;>
      simp [cppLayoutOf, hasNegLen, exceptIsOk, assertPositiveInt, h]
  | .array length item => by
    have ih := cppLayoutOf_isOk_eq item
    by_cases h : length < 0
    · simp [cppLayoutOf, hasNegLen, exceptIsOk, assertPositiveInt, h]
    · cases hcl : cppLayoutOf item with
      | error e =>
        rw [hcl] at ih
        simp [exceptIsOk] at ih
        simp [cppLayoutOf, hasNegLen, exceptIsOk, assertPositiveInt, h, hcl, ← ih]
      | ok l =>
        rw [hcl] at ih
        simp [exceptIsOk] at ih
        simp [cppLayoutOf, hasNegLen, exceptIsOk, assertPositiveInt, h, hcl, ← ih]
  | .struct fields => by
    have ih := structLayoutGo_isOk_eq fields 0 1
    cases hgo : structLayoutGo fields 0 1 with
    | error e =>
      rw [hgo] at ih
      simp [exceptIsOk] at ih
      simp [cppLayoutOf, hasNegLen, exceptIsOk, hgo, ← ih]
    | ok p =>
      rw [hgo] at ih
      simp [exceptIsOk] at ih
      simp [cppLayoutOf, hasNegLen, exceptIsOk, hgo, ← ih]

theorem structLayoutGo_isOk_eq : ∀ (fs : QbiFields) (off al : Int),
    exceptIsOk (structLayoutGo fs off al) = !fieldsHasNegLen fs
  | .nil, off, al => by simp [structLayoutGo, fieldsHasNegLen, exceptIsOk]
  | .cons n t rest, off, al => by
    have iht := cppLayoutOf_isOk_eq t
    cases hcl : cppLayoutOf t with
    | error e =>
      rw [hcl] at iht
      simp [exceptIsOk] at iht
      simp [structLayoutGo, fieldsHasNegLen, exceptIsOk, hcl, ← iht]
    | ok l =>
      rw [hcl] at iht
      simp [exceptIsOk] at iht
      have ihr := structLayoutGo_isOk_eq rest
        (alignUp off l.align + l.size) (max al l.align)
      simp [structLayoutGo, fieldsHasNegLen, hcl, ihr, ← iht]

end
mutual

theorem cppLayoutOf_shape : ∀ t : QbiTypeRef, hasNegLen t = false →
    ∃ l, cppLayoutOf t = .ok l ∧ 0 ≤ l.size ∧
      (l.align = 1 ∨ l.align = 2 ∨ l.align = 4 ∨ l.align = 8)
  | .nodata e, _ => by
    refine ⟨_, rfl, ?_, Or.inl rfl⟩
    simp only []
    exact le_trans (by omega) (le_max_left 1 (e.getD 1))
  | .u8, _ => ⟨_, rfl, by simp, Or.inl rfl⟩
  | .u16, _ => ⟨_, rfl, by simp, Or.inr (Or.inl rfl)⟩
  | .u32, _ => ⟨_, rfl, by simp, Or.inr (Or.inr (Or.inl rfl))⟩
  | .u64, _ => ⟨_, rfl, by simp, Or.inr (Or.inr (Or.inr rfl))⟩
  | .i8, _ => ⟨_, rfl, by simp, Or.inl rfl⟩
  | .i16, _ => ⟨_, rfl, by simp, Or.inr (Or.inl rfl)⟩
  | .i32, _ => ⟨_, rfl, by simp, Or.inr (Or.inr (Or.inl rfl))⟩
  | .i64, _ => ⟨_, rfl, by simp, Or.inr (Or.inr (Or.inr rfl))⟩
  | .bool, _ => ⟨_, rfl, by simp, Or.inl rfl⟩
  | .m256i, _ => ⟨_, rfl, by simp, Or.inr (Or.inr (Or.inr rfl))⟩
  | .bytes length, h => by
    simp only [hasNegLen, decide_eq_false_iff_not, not_lt] at h
    exact ⟨⟨length, 1⟩,
      by simp [cppLayoutOf, assertPositiveInt, not_lt.mpr h], h, Or.inl rfl⟩
  | .array length item, h => by
    simp only [hasNegLen, Bool.or_eq_false_iff, decide_eq_false_iff_not,
      not_lt] at h
    obtain ⟨l, hcl, hsz, hal⟩ := cppLayoutOf_shape item h.2
    refine ⟨⟨l.size * length, l.align⟩, ?_, ?_, hal⟩
    · simp [cppLayoutOf, assertPositiveInt, not_lt.mpr h.1, hcl]
    · exact Int.mul_nonneg hsz h.1
  | .struct fields, h => by
    simp only [hasNegLen] at h
    obtain ⟨p, hgo, hoff, hal⟩ := structLayoutGo_shape fields 0 1 h
      (by omega) (Or.inl rfl)
    refine ⟨⟨if alignUp p.1 p.2 = 0 then 1 else alignUp p.1 p.2, p.2⟩, ?_, ?_, hal⟩
    · simp [cppLayoutOf, hgo]
    · have := alignUp_nonneg (a := p.2) hoff
      by_cases hz : alignUp p.1 p.2 = 0 <;> (simp [hz]; try omega)

theorem structLayoutGo_shape : ∀ (fs : QbiFields) (off al : Int),
    fieldsHasNegLen fs = false → 0 ≤ off →
    (al = 1 ∨ al = 2 ∨ al = 4 ∨ al = 8) →
    ∃ p, structLayoutGo fs off al = .ok p ∧ 0 ≤ p.1 ∧
      (p.2 = 1 ∨ p.2 = 2 ∨ p.2 = 4 ∨ p.2 = 8)
  | .nil, off, al, _, hoff, hal => ⟨(off, al), rfl, hoff, hal⟩
  | .cons n t rest, off, al, h, hoff, hal => by
    simp only [fieldsHasNegLen, Bool.or_eq_false_iff] at h
    obtain ⟨l, hcl, hsz, hla⟩ := cppLayoutOf_shape t h.1
    obtain ⟨p, hgo, hp1, hp2⟩ := structLayoutGo_shape rest
      (alignUp off l.align + l.size) (max al l.align) h.2
      (by have := alignUp_nonneg (a := l.align) hoff; omega)
      (alignSet_max hal hla)
    exact ⟨p, by simp [structLayoutGo, hcl, hgo], hp1, hp2⟩

end
theorem fieldsLayouts_ok_of_noNeg : ∀ fs : QbiFields,
    fieldsHasNegLen fs = false → ∃ ls, fieldsLayouts fs = .ok ls
  | .nil, _ => ⟨[], rfl⟩
  | .cons n t rest, h => by
    simp only [fieldsHasNegLen, Bool.or_eq_false_iff] at h
    obtain ⟨l, hcl, _, _⟩ := cppLayoutOf_shape t h.1
    obtain ⟨ls, hls⟩ := fieldsLayouts_ok_of_noNeg rest h.2
    exact ⟨l :: ls, by simp [fieldsLayouts, hcl, hls]⟩

/-- C1: for every well-formed `Struct` TypeRef, `cppLayoutOf` computes its
layout by folding over the fields in declared order: before each field is
placed the running offset is rounded up to that field's alignment, then the
field's size is added, and the struct's alignment is the maximum field
alignment seen (at least 1); the final size is the running offset rounded
up to the struct's alignment, forced to 1 when that rounded size is 0. -/
theorem c1_struct_layout_fold (fields : QbiFields)
    (h : hasNegLen (.struct fields) = false) :
    ∃ ls, fieldsLayouts fields = .ok ls ∧
      cppLayoutOf (.struct fields) =
        .ok ⟨(if alignUp (structFoldSpec ls).1 (structFoldSpec ls).2 = 0 then 1
              else alignUp (structFoldSpec ls).1 (structFoldSpec ls).2),
             (structFoldSpec ls).2⟩ := by
  simp only [hasNegLen] at h
  obtain ⟨ls, hls⟩ := fieldsLayouts_ok_of_noNeg fields h
  refine ⟨ls, hls, ?_⟩
  have hgo := structLayoutGo_eq_foldl fields ls hls 0 1
  simp only [cppLayoutOf, hgo, structFoldSpec]

/-- Witness for C1 at the concrete struct `{ u8 a; u32 b; }`:
offset runs 0 → 1 → (aligned) 4 → 8, alignment 4, final size 8. -/
theorem c1_struct_layout_fold_witness :
    hasNegLen (.struct (.cons "a" .u8 (.cons "b" .u32 .nil))) = false ∧
    ∃ ls, fieldsLayouts (.cons "a" .u8 (.cons "b" .u32 .nil)) = .ok ls ∧
      cppLayoutOf (.struct (.cons "a" .u8 (.cons "b" .u32 .nil))) =
        .ok ⟨(if alignUp (structFoldSpec ls).1 (structFoldSpec ls).2 = 0 then 1
              else alignUp (structFoldSpec ls).1 (structFoldSpec ls).2),
             (structFoldSpec ls).2⟩ :=
  ⟨by decide, c1_struct_layout_fold (.cons "a" .u8 (.cons "b" .u32 .nil)) (by decide)⟩

/-- C8: `cppLayoutOf` returns a `RangeError` if and only if the given
TypeRef contains a negative `bytes`/`array` length (in the `Int` model the
"not an integer" half of the guard is intrinsic); on every well-formed
TypeRef it returns a `{size, align}` result, with no failure path. -/
theorem c8_layout_error_iff_negative_length :
    (∀ t : QbiTypeRef, (∃ e, cppLayoutOf t = .error e) ↔ hasNegLen t = true) ∧
    (∀ t : QbiTypeRef, hasNegLen t = false → ∃ l, cppLayoutOf t = .ok l) := by
  constructor
  · intro t
    have h := cppLayoutOf_isOk_eq t
    cases hcl : cppLayoutOf t with
    | error e =>
      rw [hcl] at h
      simp [exceptIsOk] at h
      simp [hcl, ← h]
    | ok l =>
      rw [hcl] at h
      simp [exceptIsOk] at h
      simp [hcl, ← h]
  · intro t hf
    obtain ⟨l, hl, _, _⟩ := cppLayoutOf_shape t hf
    exact ⟨l, hl⟩

/-- Witness for C8: `bytes (-3)` errors, and the well-formed
`array 2 u16` yields a result. -/
theorem c8_layout_error_iff_negative_length_witness :
    (∃ e, cppLayoutOf (.bytes (-3)) = .error e) ∧
    (∃ l, cppLayoutOf (.array 2 .u16) = .ok l) :=
  ⟨(c8_layout_error_iff_negative_length.1 (.bytes (-3))).mpr (by decide),
   c8_layout_error_iff_negative_length.2 (.array 2 .u16) (by decide)⟩

/-- C9: on every well-formed TypeRef (no negative length), `cppLayoutOf`
returns an alignment in `{1, 2, 4, 8}` and a non-negative size, and for
`struct`/`nodata` TypeRefs the size is at least 1. -/
theorem c9_layout_invariants (t : QbiTypeRef) (h : hasNegLen t = false) :
    ∃ l, cppLayoutOf t = .ok l ∧
      (l.align = 1 ∨ l.align = 2 ∨ l.align = 4 ∨ l.align = 8) ∧
      0 ≤ l.size ∧
      ((∃ e, t = .nodata e) ∨ (∃ fs, t = .struct fs) → 1 ≤ l.size) := by
  obtain ⟨l, hl, hsz, hal⟩ := cppLayoutOf_shape t h
  refine ⟨l, hl, hal, hsz, ?_⟩
  rintro (⟨e, rfl⟩ | ⟨fs, rfl⟩)
  · simp only [cppLayoutOf, Except.ok.injEq] at hl
    rw [← hl]
    exact le_max_left 1 (e.getD 1)
  · simp only [cppLayoutOf] at hl
    cases hgo : structLayoutGo fs 0 1 with
    | error e => rw [hgo] at hl; exact absurd hl (by simp)
    | ok p =>
      rw [hgo] at hl
      simp only [Except.ok.injEq] at hl
      obtain ⟨p', hgo', hoff, _⟩ := structLayoutGo_shape fs 0 1
        (by simpa [hasNegLen] using h) (by omega) (Or.inl rfl)
      rw [hgo] at hgo'
      cases hgo'
      rw [← hl]
      have hnn := alignUp_nonneg (v := p.1) (a := p.2) hoff
      by_cases hz : alignUp p.1 p.2 = 0 <;> (simp [hz]; try omega)

/-- Witness for C9 at `struct { u16 x; }` (size 2, align 2 ≥ 1). -/
theorem c9_layout_invariants_witness :
    hasNegLen (.struct (.cons "x" .u16 .nil)) = false ∧
    ∃ l, cppLayoutOf (.struct (.cons "x" .u16 .nil)) = .ok l ∧
      (l.align = 1 ∨ l.align = 2 ∨ l.align = 4 ∨ l.align = 8) ∧
      0 ≤ l.size ∧
      ((∃ e, (QbiTypeRef.struct (.cons "x" .u16 .nil)) = .nodata e) ∨
        (∃ fs, (QbiTypeRef.struct (.cons "x" .u16 .nil)) = .struct fs) → 1 ≤ l.size) :=
  ⟨by decide, c9_layout_invariants (.struct (.cons "x" .u16 .nil)) (by decide)⟩

theorem extractStructBody_some_contains (source structName : String)
    (body : String) (h : extractStructBody source structName = some body) :
    containsSub source ("struct " ++ structName) = true := by
  simp only [extractStructBody] at h
  unfold containsSub
  rw [String.data_append]
  cases hidx : indexOfSub ("struct ".data ++ structName.data) source.data with
  | none => rw [hidx] at h; exact absurd h (by simp)
  | some idx => simp [hidx]

/-- C6 counterexample: the locator searches for the *substring*
`struct Foo`, so on a source whose only struct is named `FooBar` (which
merely has `Foo` as a prefix) it returns the body of `FooBar` instead of
reporting absent, contradicting the claim's "exact name" and "never a
prefix-named struct" parts. -/
theorem c6_locator_prefix_counterexample :
    extractStructBody "struct FooBar { int x; };" "Foo" = some " int x; " ∧
    extractStructBody "struct FooBar { int x; };" "Foo" ≠ none := by
  constructor
  · decide
  · decide

/-- C6 (amended): the locator returns the inner text between the outermost
matching brace pair following the first occurrence of the substring
`struct <name>` (which may sit inside a longer struct name that has the
requested name as a prefix), and reports absent when that substring does
not occur or no matching closing brace (or no opening brace) is found.
The first conjunct is general; the remaining conjuncts pin the behavior on
concrete sources: exact match, nested braces, absent name, unterminated
brace, missing brace, first occurrence wins, and the prefix-named case. -/
theorem c6_locator_amended :
    (∀ source structName : String, ∀ body : String,
      extractStructBody source structName = some body →
      containsSub source ("struct " ++ structName) = true) ∧
    extractStructBody "struct Foo { int a; };" "Foo" = some " int a; " ∧
    extractStructBody "struct Foo { struct In { int b; }; int c; };" "Foo"
      = some " struct In { int b; }; int c; " ∧
    extractStructBody "struct Bar { int x; };" "Foo" = none ∧
    extractStructBody "struct Foo \x7b int a;" "Foo" = none ∧
    extractStructBody "struct Foo" "Foo" = none ∧
    extractStructBody "struct Foo { int a; }; struct Foo { int b; };" "Foo"
      = some " int a; " ∧
    extractStructBody "struct FooBar { int x; };" "Foo" = some " int x; " := by
  refine ⟨extractStructBody_some_contains, ?_, ?_, ?_, ?_, ?_, ?_, ?_⟩ <;> decide

/-- Witness for the general conjunct of the C6 amended theorem, applied at
a concrete source. -/
theorem c6_locator_amended_witness :
    containsSub "struct Foo { int a; };" ("struct " ++ "Foo") = true :=
  c6_locator_amended.1 "struct Foo { int a; };" "Foo" " int a; " (by decide)

/-- C5 counterexample: in the header
`#define B A*3` (newline) `constexpr int A = 2;`,
the definition of `B` textually precedes the only definition of `A`
(`#define B` is at index 0, `constexpr int A` at index 14), yet `B`
resolves to 6 — because `extractNumericConstants` scans *all* `constexpr`
definitions before *all* `#define` definitions, a `#define` can
successfully reference a name whose definition appears later in the
header text, contradicting the claimed single left-to-right pass. -/
theorem c5_textual_order_counterexample :
    alGet (extractNumericConstants "#define B A*3\nconstexpr int A = 2;") "B"
      = some 6 ∧
    indexOfSub "#define B".data
      "#define B A*3\nconstexpr int A = 2;".data = some 0 ∧
    indexOfSub "constexpr int A".data
      "#define B A*3\nconstexpr int A = 2;".data = some 14 := by
  refine ⟨?_, ?_, ?_⟩ <;> decide

/-- C5 (amended): the named-constant table is built in two passes, each a
single left-to-right scan: first all `constexpr` definitions in textual
order, then all `#define` definitions in textual order; within each pass
a definition may reference only names already in the table (earlier
definitions of the same pass, any `constexpr` for the `#define` pass, and
the seed), never later ones, with no fixed-point iteration.  In
particular `#define A 2` then `#define B A*3` yields `B = 6`; defining
`B` before `A` (both as `#define`s) leaves `B` unresolved and absent; a
`#define` may reference a textually *later* `constexpr`; and a
`constexpr` referencing a textually *earlier* `#define` is left
unresolved. -/
theorem c5_two_pass_left_to_right :
    alGet (extractNumericConstants "#define A 2\n#define B A*3") "B" = some 6 ∧
    alGet (extractNumericConstants "#define A 2\n#define B A*3") "A" = some 2 ∧
    alGet (extractNumericConstants "#define B A*3\n#define A 2") "B" = none ∧
    alGet (extractNumericConstants "#define B A*3\n#define A 2") "A" = some 2 ∧
    alGet (extractNumericConstants "#define B A*3\nconstexpr int A = 2;") "B"
      = some 6 ∧
    alGet (extractNumericConstants "#define C 2\nconstexpr int D = C*3;") "D"
      = none ∧
    alGet (extractNumericConstants "#define C 2\nconstexpr int D = C*3;") "C"
      = some 2 := by
  refine ⟨?_, ?_, ?_, ?_, ?_, ?_, ?_⟩ <;> decide

theorem c4_core_typeRef (recur : ParseCall → St → Option (QbiTypeRef × St))
    (h : recur (.fields c4Body) stEmpty = none) :
    parseTypeRefCore recur "Foo_input" c4Ctx stEmpty = none := by
  rw [show parseTypeRefCore recur "Foo_input" c4Ctx stEmpty =
      (match recur (.fields c4Body) stEmpty with
       | none => none
       | some r =>
         some (r.1, { r.2 with structCache := alSet r.2.structCache "Foo_input" r.1 }))
    from rfl, h]

theorem c4_core_fields (recur : ParseCall → St → Option (QbiTypeRef × St))
    (h : recur (.typeRef "Foo_input") stEmpty = none) :
    parseFieldsCore recur c4Body c4Ctx stEmpty = none := by
  rw [show parseFieldsCore recur c4Body c4Ctx stEmpty =
      (match (match recur (.typeRef "Foo_input") stEmpty with
              | none => none
              | some ri =>
                (some ([("x", ri.1)], ri.2) :
                  Option (List (String × QbiTypeRef) × St))) with
       | none => none
       | some r => some (.struct (fieldsOfList r.1), r.2))
    from rfl, h]

theorem c4_parseF_none : ∀ fuel : Nat,
    parseF fuel (.typeRef "Foo_input") c4Ctx stEmpty = none ∧
    parseF fuel (.fields c4Body) c4Ctx stEmpty = none := by
  intro fuel
  induction fuel with
  | zero => exact ⟨rfl, rfl⟩
  | succ f ih =>
    refine ⟨?_, ?_⟩
    · show parseTypeRefCore (fun c s => parseF f c c4Ctx s) "Foo_input" c4Ctx stEmpty = none
      exact c4_core_typeRef _ ih.2
    · show parseFieldsCore (fun c s => parseF f c c4Ctx s) c4Body c4Ctx stEmpty = none
      exact c4_core_fields _ ih.1

theorem c4_resolve_none (fuel : Nat) :
    resolveSideF fuel c4Ctx stEmpty ("Foo" ++ "_input") = none := by
  show parseF fuel (.fields c4Body) c4Ctx stEmpty = none
  exact (c4_parseF_none fuel).2

theorem c4_entries_none (fuel : Nat) :
    compileEntriesF fuel
      ⟨extractNumericConstants c4Header, extractTypeAliases c4Header, c4Header⟩
      [⟨.function, "Foo", 1⟩] ⟨[], []⟩ = none := by
  show compileEntriesF fuel c4Ctx [⟨.function, "Foo", 1⟩] stEmpty = none
  simp only [compileEntriesF]
  rw [c4_resolve_none fuel]

/-- C4 (code bug): on the header
`struct Foo_input { Foo_input x; };` + `REGISTER_USER_FUNCTION(Foo, 1);`
compilation never completes, for every recursion-depth budget — the
resolution cache is populated only after the recursive resolution of a
struct body returns, so the self-referential member re-resolves
`Foo_input` with the same (empty) cache forever; the claimed guarantee
that the cache prevents unbounded recursion does not hold. -/
theorem c4_resolution_diverges (fuel : Nat) (options : CompileOptions)
    (now : String) :
    compileContractHeader fuel c4Header options now = none := by
  simp only [compileContractHeader]
  rw [show extractRegisteredEntries c4Header = [⟨.function, "Foo", 1⟩] from by decide,
    c4_entries_none fuel]

/-! ## Inversion and permutation helpers for the compiled document -/

theorem resolveSideF_absent {fuel : Nat} {ctx : Ctx} {st : St} {name : String}
    (h : extractStructBody ctx.headerSource name = none) :
    resolveSideF fuel ctx st name = some (.nodata none, st) := by
  simp only [resolveSideF, h]

theorem insertCmp_perm (cmp : α → α → Int) (a : α) :
    ∀ l : List α, (insertCmp cmp a l).Perm (a :: l)
  | [] => .refl _
  | b :: bs => by
    unfold insertCmp
    split
    · exact ((insertCmp_perm cmp a bs).cons b).trans (List.Perm.swap a b bs)
    · exact .refl _

theorem insertionSortCmp_perm (cmp : α → α → Int) :
    ∀ l : List α, (insertionSortCmp cmp l).Perm l
  | [] => .refl _
  | x :: xs =>
    (insertCmp_perm cmp x (insertionSortCmp cmp xs)).trans
      ((insertionSortCmp_perm cmp xs).cons x)

theorem compile_ok_inv {fuel : Nat} {headerSource : String}
    {options : CompileOptions} {now : String} {d : QbiFile}
    (hc : compileContractHeader fuel headerSource options now = some (.ok d)) :
    d.qbiVersion = "0.1" ∧
    d.contract = ⟨options.contractName, options.contractIndex,
      options.contractPublicKeyHex, none⟩ ∧
    ∃ out : List QbiEntry × St,
      compileEntriesF fuel
        ⟨extractNumericConstants headerSource, extractTypeAliases headerSource,
          headerSource⟩
        (extractRegisteredEntries headerSource) ⟨[], []⟩ = some (.ok out) ∧
      d.entries = insertionSortCmp entryCompare out.1 := by
  simp only [compileContractHeader] at hc
  cases hce : compileEntriesF fuel
      ⟨extractNumericConstants headerSource, extractTypeAliases headerSource,
        headerSource⟩
      (extractRegisteredEntries headerSource) ⟨[], []⟩ with
  | none => rw [hce] at hc; exact absurd hc (by simp)
  | some r =>
    rw [hce] at hc
    cases r with
    | error m => exact absurd hc (by simp)
    | ok out =>
      simp only [Option.some.injEq, Except.ok.injEq] at hc
      subst hc
      exact ⟨rfl, rfl, out, rfl, rfl⟩

theorem compileEntriesF_spec (fuel : Nat) (ctx : Ctx) :
    ∀ (regs : List Registered) (st : St) (out : List QbiEntry × St),
      compileEntriesF fuel ctx regs st = some (.ok out) →
      (∀ r ∈ regs,
        extractStructBody ctx.headerSource (r.name ++ "_input") = none →
        extractStructBody ctx.headerSource (r.name ++ "_output") = none →
        (⟨r.kind, r.name, r.inputType, .nodata none, .nodata none,
          some 1, some 1⟩ : QbiEntry) ∈ out.1) ∧
      (∀ e ∈ out.1, ∃ r ∈ regs,
        e.kind = r.kind ∧ e.name = r.name ∧ e.inputType = r.inputType ∧
        (extractStructBody ctx.headerSource (r.name ++ "_input") = none →
         extractStructBody ctx.headerSource (r.name ++ "_output") = none →
         e = ⟨r.kind, r.name, r.inputType, .nodata none, .nodata none,
           some 1, some 1⟩))
  | [], st, out, h => by
    simp only [compileEntriesF, Option.some.injEq, Except.ok.injEq] at h
    subst h
    exact ⟨by simp, by simp⟩
  | reg :: rest, st, out, h => by
    simp only [compileEntriesF] at h
    split at h
    · exact absurd h (by simp)
    next inTy st1 hin =>
    split at h
    · exact absurd h (by simp)
    next outTy st2 hout =>
    split at h
    next m hl1 => exact absurd h (by simp)
    next inL hl1 =>
    split at h
    next m hl2 => exact absurd h (by simp)
    next outL hl2 =>
    split at h
    · exact absurd h (by simp)
    next m hrec => exact absurd h (by simp)
    next tail hrec =>
    simp only [Option.some.injEq, Except.ok.injEq] at h
    obtain ⟨ih1, ih2⟩ := compileEntriesF_spec fuel ctx rest st2 tail hrec
    have hfix :
        extractStructBody ctx.headerSource (reg.name ++ "_input") = none →
        extractStructBody ctx.headerSource (reg.name ++ "_output") = none →
        (⟨reg.kind, reg.name, reg.inputType, normalizeNoData inTy inL.size,
          normalizeNoData outTy outL.size, some inL.size, some outL.size⟩ :
            QbiEntry)
          = ⟨reg.kind, reg.name, reg.inputType, .nodata none, .nodata none,
            some 1, some 1⟩ := by
      intro habs1 habs2
      rw [resolveSideF_absent habs1] at hin
      have hin' : QbiTypeRef.nodata none = inTy ∧ st = st1 := by simpa using hin
      obtain ⟨hTy, hSt⟩ := hin'
      subst hTy
      subst hSt
      rw [resolveSideF_absent habs2] at hout
      have hout' : QbiTypeRef.nodata none = outTy ∧ st = st2 := by simpa using hout
      obtain ⟨hTy2, hSt2⟩ := hout'
      subst hTy2
      subst hSt2
      have h1 : inL = ⟨1, 1⟩ := by
        have h1a := hl1.symm.trans
          (show cppLayoutOf (.nodata none) = .ok ⟨1, 1⟩ by decide)
        simpa using h1a
      have h2 : outL = ⟨1, 1⟩ := by
        have h2a := hl2.symm.trans
          (show cppLayoutOf (.nodata none) = .ok ⟨1, 1⟩ by decide)
        simpa using h2a
      subst h1
      subst h2
      rfl
    subst h
    constructor
    · intro r hr habs1 habs2
      rcases List.mem_cons.mp hr with hEq | hMem
      · subst hEq
        exact List.mem_cons.mpr (Or.inl (hfix habs1 habs2).symm)
      · exact List.mem_cons.mpr (Or.inr (ih1 r hMem habs1 habs2))
    · intro e he
      rcases List.mem_cons.mp he with hEq | hMem
      · subst hEq
        exact ⟨reg, List.mem_cons_self _ _, rfl, rfl, rfl, hfix⟩
      · obtain ⟨r, hr, hk, hn, hi, hf⟩ := ih2 e hMem
        exact ⟨r, List.mem_cons.mpr (Or.inr hr), hk, hn, hi, hf⟩

/-- C3 counterexample: on the header `REGISTER_USER_FUNCTION(Foo, 3);`
(which declares no `Foo_input`/`Foo_output` struct), the compiled entry's
`input` is `nodata` *without* an `expectedSize` — the absent-struct branch
builds `{type: "nodata"}` and `normalizeNoData` rewrites only empty
structs, so the claimed `NoData{expectedSize: 1}` is not what is stored
(the sizes are still 1). -/
theorem c3_expected_size_counterexample :
    (match compileContractHeader 8 "REGISTER_USER_FUNCTION(Foo, 3);" c3Opts "" with
     | some (.ok d) => d.entries.map (fun e => e.input)
     | _ => []) = [.nodata none] ∧
    QbiTypeRef.nodata none ≠ QbiTypeRef.nodata (some 1) := by
  constructor
  · decide
  · decide

/-- C3 (amended): for every header text that contains a registration of
`Foo` with discriminant 3 and contains no occurrence of the text
`struct Foo_input` or `struct Foo_output` (in particular, declares no
such struct), every compiled document carries the entry for `Foo` with
`input` and `output` both `nodata` *without* an `expectedSize`, and
`inputSize = outputSize = 1`. -/
theorem c3_absent_struct_entry (fuel : Nat) (headerSource : String)
    (options : CompileOptions) (now : String) (d : QbiFile)
    (hreg : (⟨.function, "Foo", 3⟩ : Registered) ∈ extractRegisteredEntries headerSource)
    (hin : containsSub headerSource "struct Foo_input" = false)
    (hout : containsSub headerSource "struct Foo_output" = false)
    (hc : compileContractHeader fuel headerSource options now = some (.ok d)) :
    (⟨.function, "Foo", 3, .nodata none, .nodata none, some 1, some 1⟩ : QbiEntry)
      ∈ d.entries ∧
    ∀ e ∈ d.entries, e.name = "Foo" →
      e.input = .nodata none ∧ e.output = .nodata none ∧
      e.inputSize = some 1 ∧ e.outputSize = some 1 := by
  have hidxIn : indexOfSub "struct Foo_input".data headerSource.data = none := by
    cases hidx : indexOfSub "struct Foo_input".data headerSource.data with
    | none => rfl
    | some v =>
      exfalso
      have ht : containsSub headerSource "struct Foo_input" = true := by
        unfold containsSub
        rw [hidx]
        rfl
      rw [hin] at ht
      exact absurd ht (by simp)
  have hidxOut : indexOfSub "struct Foo_output".data headerSource.data = none := by
    cases hidx : indexOfSub "struct Foo_output".data headerSource.data with
    | none => rfl
    | some v =>
      exfalso
      have ht : containsSub headerSource "struct Foo_output" = true := by
        unfold containsSub
        rw [hidx]
        rfl
      rw [hout] at ht
      exact absurd ht (by simp)
  have hinN : extractStructBody headerSource ("Foo" ++ "_input") = none := by
    simp only [extractStructBody]
    rw [show ("struct ".data ++ ("Foo" ++ "_input" : String).data)
        = "struct Foo_input".data from by decide, hidxIn]
  have houtN : extractStructBody headerSource ("Foo" ++ "_output") = none := by
    simp only [extractStructBody]
    rw [show ("struct ".data ++ ("Foo" ++ "_output" : String).data)
        = "struct Foo_output".data from by decide, hidxOut]
  obtain ⟨-, -, out, hce, hent⟩ := compile_ok_inv hc
  obtain ⟨hmem, hall⟩ := compileEntriesF_spec fuel _ _ _ _ hce
  have hperm := insertionSortCmp_perm entryCompare out.1
  constructor
  · rw [hent]
    exact hperm.mem_iff.mpr (hmem _ hreg hinN houtN)
  · intro e he hname
    rw [hent] at he
    obtain ⟨r, _, _, hn, _, hfix⟩ := hall e (hperm.mem_iff.mp he)
    have hrname : r.name = "Foo" := by rw [← hn, hname]
    have he2 := hfix (by rw [hrname]; exact hinN) (by rw [hrname]; exact houtN)
    rw [he2]
    exact ⟨rfl, rfl, rfl, rfl⟩

/-- Witness for the C3 amended theorem at the concrete header
`REGISTER_USER_FUNCTION(Foo, 3);`. -/
theorem c3_absent_struct_entry_witness :
    (⟨.function, "Foo", 3, .nodata none, .nodata none, some 1, some 1⟩ : QbiEntry)
      ∈ c3Doc.entries ∧
    ∀ e ∈ c3Doc.entries, e.name = "Foo" →
      e.input = .nodata none ∧ e.output = .nodata none ∧
      e.inputSize = some 1 ∧ e.outputSize = some 1 :=
  c3_absent_struct_entry 8 "REGISTER_USER_FUNCTION(Foo, 3);" c3Opts "" c3Doc
    (by decide) (by decide) (by decide) (by decide)

/-! ## C7: sorted entries -/

theorem localeCompareInt_skew (a b : String) :
    localeCompareInt a b = - localeCompareInt b a := by
  unfold localeCompareInt
  by_cases h1 : a < b <;> by_cases h2 : b < a
  · exact absurd (lt_trans h1 h2) (lt_irrefl a)
  · simp [h1, h2]
  · simp [h1, h2]
  · simp [h1, h2]

theorem entryCompare_skew (a b : QbiEntry) :
    entryCompare a b = - entryCompare b a := by
  unfold entryCompare
  by_cases hd : a.inputType - b.inputType = 0
  · have hd' : b.inputType - a.inputType = 0 := by omega
    simp only [hd, hd', if_pos]
    exact localeCompareInt_skew a.name b.name
  · have hd' : ¬(b.inputType - a.inputType = 0) := by omega
    simp only [if_neg hd, if_neg hd']
    omega

theorem entryCompare_le_iff (a b : QbiEntry) :
    entryCompare a b ≤ 0 ↔
      (a.inputType < b.inputType ∨
        (a.inputType = b.inputType ∧ a.name ≤ b.name)) := by
  unfold entryCompare localeCompareInt
  by_cases hd : a.inputType - b.inputType = 0
  · rw [if_pos hd]
    by_cases h1 : a.name < b.name
    · rw [if_pos h1]
      constructor
      · intro _
        exact Or.inr ⟨by omega, le_of_lt h1⟩
      · intro _
        omega
    · rw [if_neg h1]
      by_cases h2 : b.name < a.name
      · rw [if_pos h2]
        constructor
        · intro hcon
          omega
        · rintro (hlt | ⟨heq, hle⟩)
          · omega
          · exact absurd h2 (not_lt.mpr hle)
      · rw [if_neg h2]
        constructor
        · intro _
          exact Or.inr ⟨by omega, not_lt.mp h2⟩
        · intro _
          omega
  · rw [if_neg hd]
    constructor
    · intro hle
      exact Or.inl (by omega)
    · rintro (hlt | ⟨heq, _⟩)
      · omega
      · omega

theorem entryCompare_le_trans {a b c : QbiEntry}
    (h1 : entryCompare a b ≤ 0) (h2 : entryCompare b c ≤ 0) :
    entryCompare a c ≤ 0 := by
  rw [entryCompare_le_iff] at h1 h2 ⊢
  rcases h1 with h1 | ⟨e1, n1⟩ <;> rcases h2 with h2 | ⟨e2, n2⟩
  · exact Or.inl (lt_trans h1 h2)
  · exact Or.inl (by omega)
  · exact Or.inl (by omega)
  · exact Or.inr ⟨by omega, le_trans n1 n2⟩

theorem entryCompare_flip {a b : QbiEntry} (h : ¬ entryCompare b a < 0) :
    entryCompare a b ≤ 0 := by
  rw [entryCompare_skew a b]
  omega

theorem insertCmp_pairwise (a : QbiEntry) :
    ∀ l : List QbiEntry, l.Pairwise (fun x y => entryCompare x y ≤ 0) →
      (insertCmp entryCompare a l).Pairwise (fun x y => entryCompare x y ≤ 0)
  | [], _ => by simp [insertCmp]
  | b :: bs, hl => by
    unfold insertCmp
    obtain ⟨hb, hbs⟩ := List.pairwise_cons.mp hl
    split
    next hba =>
      refine List.pairwise_cons.mpr ⟨?_, insertCmp_pairwise a bs hbs⟩
      intro y hy
      rcases List.mem_cons.mp
          ((insertCmp_perm entryCompare a bs).mem_iff.mp hy) with rfl | h2
      · exact le_of_lt hba
      · exact hb y h2
    next hba =>
      have hab : entryCompare a b ≤ 0 := entryCompare_flip hba
      refine List.pairwise_cons.mpr ⟨?_, hl⟩
      intro y hy
      rcases List.mem_cons.mp hy with rfl | h2
      · exact hab
      · exact entryCompare_le_trans hab (hb y h2)

theorem insertionSortCmp_pairwise :
    ∀ l : List QbiEntry,
      (insertionSortCmp entryCompare l).Pairwise (fun x y => entryCompare x y ≤ 0)
  | [] => by simp [insertionSortCmp]
  | x :: xs => insertCmp_pairwise x _ (insertionSortCmp_pairwise xs)

/-- C7: the entries of every compiled document are sorted by inputType
ascending then name ascending (name order per the code-unit model of
`localeCompare`); and concretely, registering `(B, 2)` then `(A, 1)`
yields the entries `A` then `B`, and swapping the two registrations in
the source text yields the identical document. -/
theorem c7_entries_sorted :
    (∀ (fuel : Nat) (headerSource : String) (options : CompileOptions)
        (now : String) (d : QbiFile),
      compileContractHeader fuel headerSource options now = some (.ok d) →
      d.entries.Pairwise (fun a b =>
        a.inputType < b.inputType ∨
          (a.inputType = b.inputType ∧ a.name ≤ b.name))) ∧
    compileContractHeader 8
        "REGISTER_USER_FUNCTION(B, 2);\nREGISTER_USER_FUNCTION(A, 1);"
        c3Opts "" = some (.ok c7Doc) ∧
    compileContractHeader 8
        "REGISTER_USER_FUNCTION(B, 2);\nREGISTER_USER_FUNCTION(A, 1);"
        c3Opts ""
      = compileContractHeader 8
        "REGISTER_USER_FUNCTION(A, 1);\nREGISTER_USER_FUNCTION(B, 2);"
        c3Opts "" := by
  refine ⟨?_, by decide, by decide⟩
  intro fuel headerSource options now d hc
  obtain ⟨-, -, out, -, hent⟩ := compile_ok_inv hc
  rw [hent]
  exact (insertionSortCmp_pairwise out.1).imp
    (fun h => (entryCompare_le_iff _ _).mp h)

/-- Witness for C7's universal part, at the `(B, 2)`/`(A, 1)` header. -/
theorem c7_entries_sorted_witness :
    c7Doc.entries.Pairwise (fun a b =>
      a.inputType < b.inputType ∨
        (a.inputType = b.inputType ∧ a.name ≤ b.name)) :=
  c7_entries_sorted.1 8
    "REGISTER_USER_FUNCTION(B, 2);\nREGISTER_USER_FUNCTION(A, 1);"
    c3Opts "" c7Doc (by decide)

/-! ## C10: the contract record depends only on the options -/

/-- C10: for any two header sources (and any fuels and clock inputs)
compiled with the same options, the contract records of the two compiled
documents are identical and equal to
`{name, contractIndex, contractPublicKeyHex}` taken from the options
(`contractId` unset). -/
theorem c10_contract_from_options_only (fuel1 fuel2 : Nat)
    (h1 h2 : String) (options : CompileOptions) (now1 now2 : String)
    (d1 d2 : QbiFile)
    (hc1 : compileContractHeader fuel1 h1 options now1 = some (.ok d1))
    (hc2 : compileContractHeader fuel2 h2 options now2 = some (.ok d2)) :
    d1.contract = d2.contract ∧
    d1.contract = ⟨options.contractName, options.contractIndex,
      options.contractPublicKeyHex, none⟩ := by
  have e1 := (compile_ok_inv hc1).2.1
  have e2 := (compile_ok_inv hc2).2.1
  exact ⟨e1.trans e2.symm, e1⟩

/-- Witness for C10 at two different concrete headers. -/
theorem c10_contract_from_options_only_witness :
    c3Doc.contract = c7Doc.contract ∧
    c3Doc.contract = ⟨c3Opts.contractName, c3Opts.contractIndex,
      c3Opts.contractPublicKeyHex, none⟩ :=
  c10_contract_from_options_only 8 8
    "REGISTER_USER_FUNCTION(Foo, 3);"
    "REGISTER_USER_FUNCTION(B, 2);\nREGISTER_USER_FUNCTION(A, 1);"
    c3Opts "" "" c3Doc c7Doc (by decide) (by decide)

mutual

theorem wfTy_noNeg : ∀ t : QbiTypeRef, wfTy t = true → hasNegLen t = false
  | .nodata e, _ => rfl
  | .u8, _ | .u16, _ | .u32, _ | .u64, _ => rfl
  | .i8, _ | .i16, _ | .i32, _ | .i64, _ => rfl
  | .bool, _ | .m256i, _ => rfl
  | .bytes l, h => by
    simp only [wfTy, decide_eq_true_eq] at h
    simp only [hasNegLen, decide_eq_false_iff_not, not_lt]
    exact h
  | .array l item, h => by
    simp only [wfTy, Bool.and_eq_true, decide_eq_true_eq] at h
    simp only [hasNegLen, Bool.or_eq_false_iff, decide_eq_false_iff_not, not_lt]
    exact ⟨h.1, wfTy_noNeg item h.2⟩
  | .struct fs, h => by
    simp only [wfTy] at h
    simp only [hasNegLen]
    exact wfFields_noNeg fs h

theorem wfFields_noNeg : ∀ fs : QbiFields, wfFields fs = true →
    fieldsHasNegLen fs = false
  | .nil, _ => rfl
  | .cons n t rest, h => by
    simp only [wfFields, Bool.and_eq_true] at h
    simp only [fieldsHasNegLen, Bool.or_eq_false_iff]
    exact ⟨wfTy_noNeg t h.1.2, wfFields_noNeg rest h.2⟩

end
theorem StOK_empty : StOK ⟨[], []⟩ := by
  intro p hp
  exact absurd hp (by simp)

theorem StOK_warn {st : St} (h : StOK st) (w : String) : StOK (warn st w) := h

theorem alSet_mem {α : Type} {m : List (String × α)} {k : String} {v : α} :
    ∀ q ∈ alSet m k v, q = (k, v) ∨ q ∈ m := by
  intro q hq
  unfold alSet at hq
  split at hq
  · obtain ⟨p, hp, hfp⟩ := List.mem_map.mp hq
    by_cases hk : p.1 = k
    · rw [if_pos hk] at hfp
      exact Or.inl hfp.symm
    · rw [if_neg hk] at hfp
      exact Or.inr (hfp ▸ hp)
  · rcases List.mem_append.mp hq with h1 | h2
    · exact Or.inr h1
    · exact Or.inl (by simpa using h2)

theorem StOK_cacheSet {st : St} {n : String} {t : QbiTypeRef}
    (hst : StOK st) (ht : wfTy t = true) :
    StOK { st with structCache := alSet st.structCache n t } := by
  intro p hp
  rcases alSet_mem p hp with rfl | hmem
  · exact ht
  · exact hst p hmem

theorem alGet_wf {st : St} {n : String} {t : QbiTypeRef}
    (hst : StOK st) (h : alGet st.structCache n = some t) : wfTy t = true := by
  unfold alGet at h
  cases hf : st.structCache.find? (fun p => p.1 = n) with
  | none => rw [hf] at h; exact absurd h (by simp)
  | some p =>
    rw [hf] at h
    simp only [Option.some.injEq] at h
    subst h
    exact hst p (List.mem_of_find?_eq_some hf)

/-! ## Well-formedness of the matcher outputs -/

theorem parseLen_nonneg {token : String} {constants : List (String × Int)} {v : Int}
    (h : parseLen token constants = some v) : 0 ≤ v := by
  unfold parseLen at h
  dsimp only at h
  split at h
  · exact absurd h (by simp)
  next v' heq =>
    split at h
    · exact absurd h (by simp)
    next hneg =>
      simp only [Option.some.injEq] at h
      omega

theorem bitWordCount_nonneg (bits : Int) : 0 ≤ bitWordCount bits :=
  le_trans (by omega) (le_max_left 1 ((bits + 63) / 64))

theorem intItemOf_wf (signed : Bool) (width : Nat) :
    wfTy (intItemOf signed width) = true := by
  unfold intItemOf
  split <;> split <;> try split
  all_goals first
    | rfl
    | (split <;> rfl)

theorem tryIntWidth_wf {rest : List Char} {signed : Bool} {w : Nat}
    {wLit : List Char} {t : QbiTypeRef}
    (h : tryIntWidth rest signed w wLit = some t) : wfTy t = true := by
  unfold tryIntWidth at h
  split at h
  · exact absurd h (by simp)
  · split at h
    · split at h
      · simp only [Option.some.injEq] at h
        subst h
        simp only [wfTy, Bool.and_eq_true, decide_eq_true_eq]
        exact ⟨Int.ofNat_nonneg _, intItemOf_wf signed w⟩
      · exact absurd h (by simp)
    · exact absurd h (by simp)

theorem matchIntArrayAlias_wf {s : List Char} {t : QbiTypeRef}
    (h : matchIntArrayAlias s = some t) : wfTy t = true := by
  have hgo : ∀ rest signed, matchIntArrayGo rest signed = some t → wfTy t = true := by
    intro rest signed hg
    unfold matchIntArrayGo at hg
    split at hg
    next t' h' => exact (Option.some.injEq .. ▸ hg : t' = t) ▸ tryIntWidth_wf h'
    next =>
      split at hg
      next t' h' => exact (Option.some.injEq .. ▸ hg : t' = t) ▸ tryIntWidth_wf h'
      next =>
        split at hg
        next t' h' => exact (Option.some.injEq .. ▸ hg : t' = t) ▸ tryIntWidth_wf h'
        next => exact tryIntWidth_wf hg
  unfold matchIntArrayAlias at h
  split at h
  next rest _ => exact hgo rest true h
  next =>
    split at h
    next rest _ => exact hgo rest false h
    next => exact absurd h (by simp)

theorem matchIdAlias_wf {s : List Char} {t : QbiTypeRef}
    (h : matchIdAlias s = some t) : wfTy t = true := by
  unfold matchIdAlias at h
  split at h
  · exact absurd h (by simp)
  · split at h
    · simp only [Option.some.injEq] at h
      subst h
      simp only [wfTy, Bool.and_eq_true, decide_eq_true_eq]
      exact ⟨Int.ofNat_nonneg _, trivial⟩
    · exact absurd h (by simp)

theorem matchBitAlias_wf {s : List Char} {t : QbiTypeRef}
    (h : matchBitAlias s = some t) : wfTy t = true := by
  unfold matchBitAlias at h
  split at h
  · exact absurd h (by simp)
  · split at h
    · simp only [Option.some.injEq] at h
      subst h
      simp only [wfTy, Bool.and_eq_true, decide_eq_true_eq]
      exact ⟨bitWordCount_nonneg _, trivial⟩
    · exact absurd h (by simp)

theorem matchKnownType_wf {s : String} {t : QbiTypeRef}
    (h : matchKnownType s = some t) : wfTy t = true := by
  unfold matchKnownType at h
  split at h
  all_goals try (simp only [Option.some.injEq] at h; subst h; decide)
  all_goals exact absurd h (by simp)

theorem matchProposalDataV1_wf {s : List Char} {t : QbiTypeRef}
    (h : matchProposalDataV1 s = some t) : wfTy t = true := by
  unfold matchProposalDataV1 at h
  split at h
  · exact absurd h (by simp)
  · split at h
    · dsimp only at h
      split at h
      · exact absurd h (by simp)
      · split at h
        · split at h
          · simp only [Option.some.injEq] at h
            subst h
            decide
          · exact absurd h (by simp)
        · exact absurd h (by simp)
    · exact absurd h (by simp)

/-! ## Non-emptiness of scanned identifiers -/

theorem stringMk_cons_ne_empty (c : Char) (cs : List Char) :
    String.mk (c :: cs) ≠ "" := by
  intro h
  have h2 : (String.mk (c :: cs)).data = ("" : String).data := by rw [h]
  have h3 : ("" : String).data = [] := rfl
  rw [h3] at h2
  exact absurd h2 (by simp)

theorem takeIdentRunBack_ne {r fwd rest : List Char}
    (h : takeIdentRunBack r = some (fwd, rest)) : fwd ≠ [] := by
  unfold takeIdentRunBack at h
  split at h
  · exact absurd h (by simp)
  next run hrun =>
    dsimp only at h
    split at h
    next fc tl heq =>
      split at h
      · simp only [Option.some.injEq, Prod.mk.injEq] at h
        intro hcon
        rw [hcon] at h
        exact absurd h.1 (by simp [heq])
      · exact absurd h (by simp)
    next => exact absurd h (by simp)

theorem takeIdentRunBack_name_ne {r fwd rest : List Char}
    (h : takeIdentRunBack r = some (fwd, rest)) : String.mk fwd ≠ "" := by
  cases hf : fwd with
  | nil => exact absurd hf (takeIdentRunBack_ne h)
  | cons c cs => exact stringMk_cons_ne_empty c cs

theorem matchArrayField_name_ne {stmt rawType : List Char} {name tok : String}
    (h : matchArrayField stmt = some (rawType, name, tok)) : name ≠ "" := by
  unfold matchArrayField at h
  split at h
  swap
  · exact absurd h (by simp)
  dsimp only at h
  split at h
  · exact absurd h (by simp)
  split at h
  swap
  · exact absurd h (by simp)
  split at h
  · exact absurd h (by simp)
  next fwd r6 hident =>
  split at h
  swap
  · exact absurd h (by simp)
  split at h
  swap
  · exact absurd h (by simp)
  try dsimp only at h
  split at h
  · exact absurd h (by simp)
  · simp only [Option.some.injEq, Prod.mk.injEq] at h
    rw [← h.2.1]
    exact takeIdentRunBack_name_ne hident

theorem collectNamesBack_names_ne :
    ∀ (fuel : Nat) (r : List Char) (acc : List String),
      (∀ n ∈ acc, n ≠ "") →
      ∀ cand ∈ collectNamesBack fuel r acc, ∀ n ∈ cand.1, n ≠ ""
  | 0, _, _, _, cand, hcand => absurd hcand (by simp [collectNamesBack])
  | fuel+1, r, acc, hacc, cand, hcand => by
    unfold collectNamesBack at hcand
    split at hcand
    · exact absurd hcand (by simp)
    next name r' hname =>
      have hcons : ∀ n ∈ (String.mk name :: acc), n ≠ "" := by
        intro n hn
        rcases List.mem_cons.mp hn with rfl | hmem
        · exact takeIdentRunBack_name_ne hname
        · exact hacc n hmem
      split at hcand
      · rcases List.mem_append.mp hcand with hdeep | hlast
        · exact collectNamesBack_names_ne fuel _ _ hcons cand hdeep
        · intro n hn
          have : cand = (String.mk name :: acc, r') := by simpa using hlast
          rw [this] at hn
          exact hcons n hn
      · intro n hn
        have : cand = (String.mk name :: acc, r') := by simpa using hcand
        rw [this] at hn
        exact hcons n hn

theorem pickNamesCandidate_names_ne :
    ∀ (cands : List (List String × List Char)) (rawType : List Char)
      (names : List String),
      (∀ cand ∈ cands, ∀ n ∈ cand.1, n ≠ "") →
      pickNamesCandidate cands = some (rawType, names) →
      ∀ n ∈ names, n ≠ ""
  | [], _, _, _, h => absurd h (by simp [pickNamesCandidate])
  | (cnames, r') :: rest, rawType, names, hall, h => by
    unfold pickNamesCandidate at h
    split at h
    next c tl heq =>
      split at h
      · simp only [Option.some.injEq, Prod.mk.injEq] at h
        intro n hn
        exact hall _ (List.mem_cons_self _ _) n (h.2 ▸ hn)
      · exact pickNamesCandidate_names_ne rest rawType names
          (fun cand hc => hall cand (List.mem_cons.mpr (Or.inr hc))) h
    next =>
      exact pickNamesCandidate_names_ne rest rawType names
        (fun cand hc => hall cand (List.mem_cons.mpr (Or.inr hc))) h

theorem matchMultiName_names_ne {stmt rawType : List Char} {names : List String}
    (h : matchMultiName stmt = some (rawType, names)) : ∀ n ∈ names, n ≠ "" := by
  unfold matchMultiName at h
  exact pickNamesCandidate_names_ne _ _ _
    (collectNamesBack_names_ne _ _ [] (by simp)) h

theorem structLookup_wf {recur : ParseCall → St → Option (QbiTypeRef × St)}
    {noNsStr : String} {ctx : Ctx} {st : St} {r : QbiTypeRef × St}
    (hrec : RecurOK recur) (hst : StOK st)
    (h : structLookup recur noNsStr ctx st = some r) :
    wfTy r.1 = true ∧ StOK r.2 := by
  unfold structLookup at h
  split at h
  next cached hcached =>
    simp only [Option.some.injEq] at h
    subst h
    exact ⟨alGet_wf hst hcached, hst⟩
  next =>
    split at h
    next body hbody =>
      split at h
      · exact absurd h (by simp)
      next ri hri =>
        simp only [Option.some.injEq] at h
        subst h
        obtain ⟨hwf, hst'⟩ := hrec _ _ _ hst hri
        exact ⟨hwf, StOK_cacheSet hst' hwf⟩
    next =>
      simp only [Option.some.injEq] at h
      subst h
      exact ⟨rfl, hst⟩

theorem parseTypeRefCore_wf {recur : ParseCall → St → Option (QbiTypeRef × St)}
    {rawType : String} {ctx : Ctx} {st : St} {r : QbiTypeRef × St}
    (hrec : RecurOK recur) (hst : StOK st)
    (h : parseTypeRefCore recur rawType ctx st = some r) :
    wfTy r.1 = true ∧ StOK r.2 := by
  unfold parseTypeRefCore at h
  dsimp only at h
  split at h
  next tpl htpl =>
    split at h
    next hlen =>
      simp only [Option.some.injEq] at h
      subst h
      exact ⟨rfl, hst⟩
    next len hlen =>
      split at h
      · exact absurd h (by simp)
      next ri hri =>
        simp only [Option.some.injEq] at h
        subst h
        obtain ⟨hwf, hst'⟩ := hrec _ _ _ hst hri
        refine ⟨?_, hst'⟩
        simp only [wfTy, Bool.and_eq_true, decide_eq_true_eq]
        exact ⟨parseLen_nonneg hlen, hwf⟩
  next =>
  split at h
  next tok htok =>
    split at h
    next hlen =>
      simp only [Option.some.injEq] at h
      subst h
      exact ⟨rfl, hst⟩
    next bits hlen =>
      simp only [Option.some.injEq] at h
      subst h
      refine ⟨?_, hst⟩
      simp only [wfTy, Bool.and_eq_true, decide_eq_true_eq]
      exact ⟨bitWordCount_nonneg bits, trivial⟩
  next =>
  split at h
  next t ht =>
    simp only [Option.some.injEq] at h
    subst h
    exact ⟨matchIntArrayAlias_wf ht, hst⟩
  next =>
  split at h
  next t ht =>
    simp only [Option.some.injEq] at h
    subst h
    exact ⟨matchIdAlias_wf ht, hst⟩
  next =>
  split at h
  next t ht =>
    simp only [Option.some.injEq] at h
    subst h
    exact ⟨matchBitAlias_wf ht, hst⟩
  next =>
  split at h
  next t ht =>
    simp only [Option.some.injEq] at h
    subst h
    exact ⟨matchKnownType_wf ht, hst⟩
  next =>
  split at h
  next t ht =>
    simp only [Option.some.injEq] at h
    subst h
    exact ⟨matchProposalDataV1_wf ht, hst⟩
  next =>
  split at h
  next aliased haliased =>
    split at h
    · exact hrec _ _ _ hst h
    · exact structLookup_wf hrec hst h
  next => exact structLookup_wf hrec hst h

theorem goFields_wf {recur : ParseCall → St → Option (QbiTypeRef × St)}
    {ctx : Ctx} (hrec : RecurOK recur) :
    ∀ (stmts : List (List Char)) (st : St)
      (acc : List (String × QbiTypeRef)) (r : List (String × QbiTypeRef) × St),
      StOK st → (∀ p ∈ acc, p.1 ≠ "" ∧ wfTy p.2 = true) →
      goFields recur ctx stmts st acc = some r →
      (∀ p ∈ r.1, p.1 ≠ "" ∧ wfTy p.2 = true) ∧ StOK r.2
  | [], st, acc, r, hst, hacc, h => by
    simp only [goFields, Option.some.injEq] at h
    subst h
    exact ⟨fun p hp => hacc p (by simpa using hp), hst⟩
  | stmt :: rest, st, acc, r, hst, hacc, h => by
    unfold goFields at h
    split at h
    · exact goFields_wf hrec rest st acc r hst hacc h
    split at h
    · exact goFields_wf hrec rest st acc r hst hacc h
    split at h
    · exact goFields_wf hrec rest st acc r hst hacc h
    split at h
    · exact goFields_wf hrec rest st acc r hst hacc h
    split at h
    next rawType name lenToken harr =>
      split at h
      next hlen =>
        exact goFields_wf hrec rest
          (warn st ("Could not resolve array length token: " ++ lenToken))
          acc r (fun p hp => hst p hp) hacc h
      next len hlen =>
        split at h
        · exact absurd h (by simp)
        next ri hri =>
          obtain ⟨hwf, hst'⟩ := hrec _ _ _ hst hri
          refine goFields_wf hrec rest _ _ r hst' ?_ h
          intro p hp
          rcases List.mem_cons.mp hp with rfl | hmem
          · refine ⟨matchArrayField_name_ne harr, ?_⟩
            simp only [wfTy, Bool.and_eq_true, decide_eq_true_eq]
            exact ⟨parseLen_nonneg hlen, hwf⟩
          · exact hacc p hmem
    next =>
      split at h
      next rawType names hmulti =>
        split at h
        · exact absurd h (by simp)
        next ri hri =>
          obtain ⟨hwf, hst'⟩ := hrec _ _ _ hst hri
          refine goFields_wf hrec rest _ _ r hst' ?_ h
          intro p hp
          rcases List.mem_append.mp hp with hrev | hmem
          · obtain ⟨n, hn, hpn⟩ := List.mem_map.mp (List.mem_reverse.mp hrev)
            rw [← hpn]
            exact ⟨matchMultiName_names_ne hmulti n hn, hwf⟩
          · exact hacc p hmem
      next =>
        exact goFields_wf hrec rest
          (warn st ("Unrecognized field statement: " ++ String.mk stmt))
          acc r (fun p hp => hst p hp) hacc h

theorem fieldsOfList_wf :
    ∀ l : List (String × QbiTypeRef),
      (∀ p ∈ l, p.1 ≠ "" ∧ wfTy p.2 = true) →
      wfFields (fieldsOfList l) = true
  | [], _ => rfl
  | (n, t) :: rest, h => by
    have hh := h (n, t) (by simp)
    simp only [fieldsOfList, wfFields, Bool.and_eq_true, decide_eq_true_eq]
    exact ⟨⟨hh.1, hh.2⟩,
      fieldsOfList_wf rest (fun p hp => h p (List.mem_cons.mpr (Or.inr hp)))⟩

theorem parseFieldsCore_wf {recur : ParseCall → St → Option (QbiTypeRef × St)}
    {body : String} {ctx : Ctx} {st : St} {r : QbiTypeRef × St}
    (hrec : RecurOK recur) (hst : StOK st)
    (h : parseFieldsCore recur body ctx st = some r) :
    wfTy r.1 = true ∧ StOK r.2 := by
  unfold parseFieldsCore at h
  dsimp only at h
  split at h
  · exact absurd h (by simp)
  next flds hflds =>
    simp only [Option.some.injEq] at h
    subst h
    obtain ⟨hall, hst'⟩ := goFields_wf hrec _ _ _ _ hst (by simp) hflds
    refine ⟨?_, hst'⟩
    simp only [wfTy]
    exact fieldsOfList_wf _ hall

theorem parseF_wf (ctx : Ctx) :
    ∀ (fuel : Nat) (c : ParseCall) (st : St) (r : QbiTypeRef × St),
      StOK st → parseF fuel c ctx st = some r →
      wfTy r.1 = true ∧ StOK r.2 := by
  intro fuel
  induction fuel with
  | zero =>
    intro c st r _ h
    exact absurd h (by simp [parseF])
  | succ f ih =>
    intro c st r hst h
    have hrec : RecurOK (fun c s => parseF f c ctx s) :=
      fun c' st' r' hst' h' => ih c' st' r' hst' h'
    cases c with
    | typeRef rawType =>
      exact parseTypeRefCore_wf hrec hst h
    | fields body =>
      exact parseFieldsCore_wf hrec hst h

theorem resolveSideF_wf {fuel : Nat} {ctx : Ctx} {st : St} {name : String}
    {r : QbiTypeRef × St} (hst : StOK st)
    (h : resolveSideF fuel ctx st name = some r) :
    wfTy r.1 = true ∧ StOK r.2 := by
  unfold resolveSideF at h
  split at h
  next body hbody => exact parseF_wf ctx fuel _ st r hst h
  next =>
    simp only [Option.some.injEq] at h
    subst h
    exact ⟨rfl, hst⟩

/-! ## Registered entries are well-formed -/

theorem matchRegisterAt_name_ne {macroLit s : List Char}
    {r : String × Nat × List Char}
    (h : matchRegisterAt macroLit s = some r) : r.1 ≠ "" := by
  unfold matchRegisterAt at h
  split at h
  · exact absurd h (by simp)
  split at h
  swap
  · exact absurd h (by simp)
  dsimp only at h
  split at h
  · exact absurd h (by simp)
  next ic idRest hrun =>
  split at h
  · exact absurd h (by simp)
  split at h
  swap
  · exact absurd h (by simp)
  try dsimp only at h
  split at h
  · exact absurd h (by simp)
  next d ds hds =>
  split at h
  swap
  · exact absurd h (by simp)
  split at h
  swap
  · exact absurd h (by simp)
  simp only [Option.some.injEq] at h
  rw [← h]
  exact stringMk_cons_ne_empty ic idRest

theorem scanRegisters_wf (macroLit : List Char) (kind : EntryKind) :
    ∀ (fuel : Nat) (s : List Char),
      ∀ e ∈ scanRegisters macroLit kind fuel s, e.name ≠ "" ∧ 0 ≤ e.inputType
  | 0, s, e, he => absurd he (by simp [scanRegisters])
  | fuel+1, [], e, he => absurd he (by simp [scanRegisters])
  | fuel+1, c :: rest, e, he => by
    unfold scanRegisters at he
    split at he
    next r hr =>
      rcases List.mem_cons.mp he with rfl | hmem
      · exact ⟨matchRegisterAt_name_ne hr, Int.ofNat_nonneg _⟩
      · exact scanRegisters_wf macroLit kind fuel _ e hmem
    next => exact scanRegisters_wf macroLit kind fuel rest e he

theorem extractRegisteredEntries_wf (source : String) :
    ∀ r ∈ extractRegisteredEntries source, r.name ≠ "" ∧ 0 ≤ r.inputType := by
  intro r hr
  unfold extractRegisteredEntries at hr
  rcases List.mem_append.mp hr with h1 | h2
  · exact scanRegisters_wf _ _ _ _ r h1
  · exact scanRegisters_wf _ _ _ _ r h2

/-! ## Normalization and the stored sizes -/

theorem normalizeNoData_wf {t : QbiTypeRef} {s : Int}
    (ht : wfTy t = true) (hs : 0 ≤ s) :
    wfTy (normalizeNoData t s) = true := by
  unfold normalizeNoData
  split
  · simp only [wfTy, decide_eq_true_eq]
    exact hs
  · exact ht

theorem normalizeNoData_size {t : QbiTypeRef} {l : CppLayout}
    (hl : cppLayoutOf t = .ok l) :
    ∃ l', cppLayoutOf (normalizeNoData t l.size) = .ok l' ∧ l'.size = l.size := by
  unfold normalizeNoData
  split
  · have h1 : l = ⟨1, 1⟩ := by
      have h2 := hl.symm.trans
        (show cppLayoutOf (.struct .nil) = .ok ⟨1, 1⟩ from by decide)
      simpa using h2
    subst h1
    exact ⟨⟨1, 1⟩, by decide, rfl⟩
  · exact ⟨l, hl, rfl⟩

/-! ## A well-formed document validates cleanly -/

mutual

theorem validateTypeRef_nil : ∀ (t : QbiTypeRef) (path : String),
    wfTy t = true → validateTypeRef t path = []
  | .nodata e, path, h => by
    cases e with
    | none => rfl
    | some v =>
      simp only [wfTy, decide_eq_true_eq] at h
      simp only [validateTypeRef, isUintI, decide_eq_true_eq]
      rw [if_pos h]
  | .u8, _, _ | .u16, _, _ | .u32, _, _ | .u64, _, _ => rfl
  | .i8, _, _ | .i16, _, _ | .i32, _, _ | .i64, _, _ => rfl
  | .bool, _, _ | .m256i, _, _ => rfl
  | .bytes l, path, h => by
    simp only [wfTy, decide_eq_true_eq] at h
    simp only [validateTypeRef, isUintI, decide_eq_true_eq]
    rw [if_pos h]
  | .array l item, path, h => by
    simp only [wfTy, Bool.and_eq_true, decide_eq_true_eq] at h
    simp only [validateTypeRef, isUintI, decide_eq_true_eq]
    rw [if_pos h.1, validateTypeRef_nil item _ h.2]
    rfl
  | .struct fs, path, h => by
    simp only [wfTy] at h
    simp only [validateTypeRef]
    exact validateFieldsGo_nil fs path 0 h

theorem validateFieldsGo_nil : ∀ (fs : QbiFields) (path : String) (i : Nat),
    wfFields fs = true → validateFieldsGo fs path i = []
  | .nil, _, _, _ => rfl
  | .cons n t rest, path, i, h => by
    simp only [wfFields, Bool.and_eq_true, decide_eq_true_eq] at h
    simp only [validateFieldsGo]
    rw [if_neg h.1.1, validateTypeRef_nil t _ h.1.2,
      validateFieldsGo_nil rest path (i + 1) h.2]
    rfl

end
theorem layout_ok_of_wf {t : QbiTypeRef} (h : wfTy t = true) :
    ∃ l, cppLayoutOf t = .ok l ∧ 0 ≤ l.size := by
  obtain ⟨l, hl, hs, _⟩ := cppLayoutOf_shape t (wfTy_noNeg t h)
  exact ⟨l, hl, hs⟩

theorem compiled_side_ok {t : QbiTypeRef} {l : CppLayout}
    (hwf : wfTy t = true) (hl : cppLayoutOf t = .ok l) :
    wfTy (normalizeNoData t l.size) = true ∧
    (∃ l', cppLayoutOf (normalizeNoData t l.size) = .ok l' ∧
      (some l.size : Option Int) = some l'.size ∧ 0 ≤ l'.size) := by
  have hnn : 0 ≤ l.size := by
    obtain ⟨l0, hl0, hs0⟩ := layout_ok_of_wf hwf
    rw [hl0] at hl
    cases hl
    exact hs0
  obtain ⟨l', hl', hsz⟩ := normalizeNoData_size hl
  exact ⟨normalizeNoData_wf hwf hnn, l', hl', by rw [hsz], by rw [hsz]; exact hnn⟩

theorem compileEntriesF_ok (fuel : Nat) (ctx : Ctx) :
    ∀ (regs : List Registered) (st : St) (out : List QbiEntry × St),
      StOK st → (∀ r ∈ regs, r.name ≠ "" ∧ 0 ≤ r.inputType) →
      compileEntriesF fuel ctx regs st = some (.ok out) →
      ∀ e ∈ out.1, EntryOk e
  | [], st, out, _, _, h => by
    simp only [compileEntriesF, Option.some.injEq, Except.ok.injEq] at h
    subst h
    intro e he
    exact absurd he (by simp)
  | reg :: rest, st, out, hst, hregs, h => by
    simp only [compileEntriesF] at h
    split at h
    · exact absurd h (by simp)
    next inTy st1 hin =>
    split at h
    · exact absurd h (by simp)
    next outTy st2 hout =>
    split at h
    next m hl1 => exact absurd h (by simp)
    next inL hl1 =>
    split at h
    next m hl2 => exact absurd h (by simp)
    next outL hl2 =>
    split at h
    · exact absurd h (by simp)
    next m hrec => exact absurd h (by simp)
    next tail hrec =>
    simp only [Option.some.injEq, Except.ok.injEq] at h
    subst h
    obtain ⟨hwfIn, hst1⟩ := resolveSideF_wf hst hin
    obtain ⟨hwfOut, hst2⟩ := resolveSideF_wf hst1 hout
    have ihtail := compileEntriesF_ok fuel ctx rest st2 tail hst2
      (fun r hr => hregs r (List.mem_cons.mpr (Or.inr hr))) hrec
    intro e he
    rcases List.mem_cons.mp he with rfl | hmem
    · obtain ⟨hwfIn', lin, hlin, hsin, hnnin⟩ := compiled_side_ok hwfIn hl1
      obtain ⟨hwfOut', lout, hlout, hsout, hnnout⟩ := compiled_side_ok hwfOut hl2
      obtain ⟨hname, hit⟩ := hregs reg (List.mem_cons_self _ _)
      exact ⟨hname, hit, hwfIn', hwfOut',
        ⟨lin, hlin, hsin, hnnin⟩, ⟨lout, hlout, hsout, hnnout⟩⟩
    · exact ihtail e hmem

theorem validateStoredSize_ok {stored : Option Int} {t : QbiTypeRef}
    (label : String)
    (h : ∃ l, cppLayoutOf t = .ok l ∧ stored = some l.size ∧ 0 ≤ l.size) :
    validateStoredSize stored t label = .ok [] := by
  obtain ⟨l, hl, hs, hnn⟩ := h
  rw [hs]
  simp only [validateStoredSize, hl]
  rw [if_pos (show isUintI l.size = true from by
    simp only [isUintI, decide_eq_true_eq]; exact hnn)]
  rw [if_neg (fun hne => hne rfl)]

theorem validateEntry_ok {e : QbiEntry} (path : String) (h : EntryOk e) :
    validateEntry e path = .ok [] := by
  obtain ⟨hname, hit, hwin, hwout, hin, hout⟩ := h
  have hkind : (e.kind = EntryKind.function || e.kind = EntryKind.procedure)
      = true := by
    cases e.kind
    · rfl
    · rfl
  simp only [validateEntry, validateStoredSize_ok (path ++ ".inputSize") hin,
    validateStoredSize_ok (path ++ ".outputSize") hout]
  rw [if_pos hkind, if_neg hname]
  rw [if_pos (show isUintI e.inputType = true from by
    simp only [isUintI, decide_eq_true_eq]; exact hit)]
  rw [validateTypeRef_nil e.input _ hwin, validateTypeRef_nil e.output _ hwout]
  rfl

theorem validateEntriesGo_ok : ∀ (i : Nat) (l : List QbiEntry),
    (∀ e ∈ l, EntryOk e) → validateEntriesGo i l = .ok []
  | _, [], _ => rfl
  | i, e :: rest, h => by
    simp only [validateEntriesGo,
      validateEntry_ok ("entries[" ++ Nat.repr i ++ "]")
        (h e (List.mem_cons_self _ _)),
      validateEntriesGo_ok (i + 1) rest
        (fun x hx => h x (List.mem_cons.mpr (Or.inr hx)))]
    rfl

theorem validateContract_of_validOptions {o : CompileOptions}
    (h : validOptions o = true) :
    validateContract
      ⟨o.contractName, o.contractIndex, o.contractPublicKeyHex, none⟩ = [] := by
  simp only [validOptions, Bool.and_eq_true, decide_eq_true_eq] at h
  obtain ⟨⟨hn, hi⟩, hk⟩ := h
  unfold validateContract
  rw [if_neg hn]
  cases hoi : o.contractIndex with
  | none =>
    cases hok : o.contractPublicKeyHex with
    | none => rfl
    | some k =>
      rw [hok] at hk
      simp only [if_pos hk]
      rfl
  | some i =>
    rw [hoi] at hi
    cases hok : o.contractPublicKeyHex with
    | none => simp only [if_pos hi]; rfl
    | some k =>
      rw [hok] at hk
      simp only [if_pos hi, if_pos hk]
      rfl

/-- C2 — Round-trip: for every header source, every options record with a
non-empty contract name, a non-negative optional contractIndex and a
64-character-hex optional contractPublicKeyHex, whenever
`compileContractHeader` completes with a document, `validateQbiFile`
accepts that document with `ok = true` and an empty error list, and every
entry's stored `inputSize`/`outputSize` equals the size recomputed by
`cppLayoutOf` on that entry's `input`/`output` type reference. -/
theorem c2_roundtrip_validates {fuel : Nat} {headerSource : String}
    {options : CompileOptions} {now : String} {d : QbiFile}
    (hopts : validOptions options = true)
    (hc : compileContractHeader fuel headerSource options now = some (.ok d)) :
    validateQbiFile d = .ok ⟨true, []⟩ ∧
    ∀ e ∈ d.entries,
      (∃ l, cppLayoutOf e.input = .ok l ∧ e.inputSize = some l.size) ∧
      (∃ l, cppLayoutOf e.output = .ok l ∧ e.outputSize = some l.size) := by
  obtain ⟨hver, hcon, out, hce, hent⟩ := compile_ok_inv hc
  have hok : ∀ e ∈ out.1, EntryOk e :=
    compileEntriesF_ok fuel _ _ _ out StOK_empty
      (fun r hr => extractRegisteredEntries_wf headerSource r hr) hce
  have hokd : ∀ e ∈ d.entries, EntryOk e := by
    intro e he
    rw [hent] at he
    exact hok e ((insertionSortCmp_perm entryCompare out.1).mem_iff.mp he)
  refine ⟨?_, ?_⟩
  · simp only [validateQbiFile, hver, validateEntriesGo_ok 0 d.entries hokd,
      hcon, validateContract_of_validOptions hopts]
    rfl
  · intro e he
    obtain ⟨_, _, _, _, ⟨li, hli, hsi, _⟩, ⟨lo, hlo, hso, _⟩⟩ := hokd e he
    exact ⟨⟨li, hli, hsi⟩, ⟨lo, hlo, hso⟩⟩

theorem c2_roundtrip_validates_witness :
    validOptions c2Opts = true ∧ validateQbiFile c2Doc = .ok ⟨true, []⟩ :=
  ⟨by decide,
    (c2_roundtrip_validates (by decide)
      (show compileContractHeader 9 c2Header c2Opts "T" = some (.ok c2Doc) from
        by decide)).1⟩
